import Mathlib

/-!
# srordle: the dictionary trie, the row geometry and the scorer

A shallow embedding of `trie/trie.go` and `srordle/srordle.go`.

Conventions of the embedding.

* A Go `string` is a Lean `String`, i.e. a sequence of Unicode scalar values; a Go
  `rune` is a `Char`.  (A Go string that is not valid UTF-8 decodes, under `range` and
  under `[]rune(s)`, to U+FFFD at every bad byte; such strings are outside the model.)
* A Go `range` over a string yields the **byte offset** of every rune together with the
  rune; `rangeString` keeps that offset, it is not the rune index.
* Go `int` is `Int`; all the integers below are indices and letter counts bounded by the
  length of a string held in memory, so 64-bit wrap-around does not occur.
* A run-time panic (index out of range, the explicit `panic` of `toIndex`) is the
  outer `none` of an `Option` result.
* In-place mutation through pointers is explicit state passing: the trie is a strict
  tree, so no two pointers alias.
-/

/-- A Go `rune` holding a valid Unicode scalar value. -/
abbrev rune := Char

/-- The number of bytes of the UTF-8 encoding of a valid scalar value. -/
def runeWidth (r : rune) : Nat :=
  if r.toNat ≤ 0x7F then 1
  else if r.toNat ≤ 0x7FF then 2
  else if r.toNat ≤ 0xFFFF then 3
  else 4

/-- The pairs (byte offset, rune) of `for i, r := range s`, starting at byte offset `i`. -/
def rangeRunes (i : Nat) : List rune → List (Nat × rune)
  | [] => []
  | r :: rs => (i, r) :: rangeRunes (i + runeWidth r) rs

/-- The pairs (byte offset, rune) that `for i, r := range s` yields. -/
def rangeString (s : String) : List (Nat × rune) :=
  rangeRunes 0 s.toList

/-- The Go library function `utf8.RuneCountInString`. -/
def RuneCountInString (s : String) : Int :=
  (s.toList.length : Int)

/-- The Go library function `utf8.RuneLen` on a valid scalar value. -/
def RuneLen (r : rune) : Int :=
  (runeWidth r : Int)

/-- The Go library function `unicode.IsLower`, on the runes below U+0080: these are the
only runes `checkInput` passes to it, and among them exactly `a`..`z` are lowercase. -/
def IsLower (r : rune) : Bool :=
  decide (97 ≤ r.toNat ∧ r.toNat ≤ 122)

namespace trie

/-- The source constant `letters`. -/
def letters : Nat := 26

/-- The source variable `aValue`, set by `init` to the single byte that encodes `a`. -/
def aValue : Int := 97

/-- The source struct `node`; a nil `*node` is `none`. -/
structure node where
  leaf : Bool
  letter : rune
  children : Fin letters → Option node

/-- A Go array `[letters]*node`. -/
abbrev nodeArray := Fin letters → Option node

/-- The zero value of `[letters]*node`: every slot nil. -/
def nodeArray.zero : nodeArray := fun _ => none

/-- Indexing `a[k]` with a Go `int`; `none` is the out-of-range panic. -/
def nodeArray.index (a : nodeArray) (k : Int) : Option (Option node) :=
  if h : 0 ≤ k ∧ k < (letters : Int) then
    some (a ⟨k.toNat, by have := h.1; have := h.2; omega⟩)
  else none

/-- The assignment `a[k] = v` with a Go `int`; `none` is the out-of-range panic. -/
def nodeArray.store (a : nodeArray) (k : Int) (v : Option node) : Option nodeArray :=
  if h : 0 ≤ k ∧ k < (letters : Int) then
    some (Function.update a ⟨k.toNat, by have := h.1; have := h.2; omega⟩ v)
  else none

/-- The source struct `Trie`. -/
structure Trie where
  roots : nodeArray
  size : Int

/-- The value of `new(Trie)`. -/
def Trie.new : Trie := ⟨nodeArray.zero, 0⟩

/-- The errors `checkInput` builds with `fmt.Errorf`: the rune at byte offset `index` of
`input` needs `n` bytes, or it is not lowercase. -/
inductive InputError where
  | needsBytes (index : Nat) (input : String) (n : Int)
  | notLowercase (index : Nat) (input : String)
  deriving DecidableEq, Repr

/-- The loop of `checkInput` over the remaining (byte offset, rune) pairs. -/
def checkInput.loop (input : String) : List (Nat × rune) → Option InputError
  | [] => none
  | (i, r) :: rest =>
    if RuneLen r ≠ 1 then some (InputError.needsBytes i input (RuneLen r))
    else if !IsLower r then some (InputError.notLowercase i input)
    else checkInput.loop input rest

/-- The source function `checkInput`; `none` is the nil error. -/
def checkInput (input : String) : Option InputError :=
  checkInput.loop input (rangeString input)

/-- The source method `Trie.Size`. -/
def Trie.Size (t : Trie) : Int :=
  t.size

/-- The source function `toIndex`; `none` is its panic (the rune does not encode in one
byte). -/
def toIndex (r : rune) : Option Int :=
  if runeWidth r = 1 then some ((r.toNat : Int) - aValue) else none

/-- The lookup loop of `HasWord` over the remaining (byte offset, rune) pairs, `n` being
the rune count of the input and `nodes` the current layer. -/
def HasWord.loop (n : Int) : List (Nat × rune) → nodeArray → Option (Bool × Option InputError)
  | [], _ => some (false, none)
  | (i, r) :: rest, nodes =>
    match toIndex r with
    | none => none
    | some k =>
      match nodes.index k with
      | none => none
      | some none => some (false, none)
      | some (some nd) =>
        if (i : Int) = n - 1 then some (nd.leaf, none)
        else HasWord.loop n rest nd.children

/-- The source method `Trie.HasWord`: the returned pair `(bool, error)`. -/
def Trie.HasWord (t : Trie) (input : String) : Option (Bool × Option InputError) :=
  match checkInput input with
  | some err => some (false, some err)
  | none => HasWord.loop (RuneCountInString input) (rangeString input) t.roots

/-- The insertion loop of `addWord` over the remaining (byte offset, rune) pairs: the
layer `curNodes` after the loop has run on it and on the layers below it. -/
def addWord.loop (n : Int) : List (Nat × rune) → nodeArray → Option nodeArray
  | [], curNodes => some curNodes
  | (i, r) :: rest, curNodes =>
    match toIndex r with
    | none => none
    | some idx =>
      match curNodes.index idx with
      | none => none
      | some cur =>
        let curNode : node :=
          match cur with
          | none => { leaf := false, letter := r, children := nodeArray.zero }
          | some nd => nd
        let leaf : Bool := if (i : Int) = n - 1 then true else curNode.leaf
        match addWord.loop n rest curNode.children with
        | none => none
        | some children =>
          curNodes.store idx (some { leaf := leaf, letter := curNode.letter, children := children })

/-- The source method `Trie.addWord`: the trie after the call and the returned error. -/
def Trie.addWord (t : Trie) (input : String) : Option (Trie × Option InputError) :=
  match checkInput input with
  | some err => some (t, some err)
  | none =>
    match addWord.loop (RuneCountInString input) (rangeString input) t.roots with
    | none => none
    | some roots => some ({ t with roots := roots }, none)

/-- What `New` sees of its `io.Reader` through `bufio.Scanner`: the lines `sc.Text()`
returns, in order, and the final value of `sc.Err()`. -/
structure Reader where
  lines : List String
  err : Option String

/-- A reader that delivers the given words, one per line, without a read error. -/
def Reader.ofWords (words : List String) : Reader := ⟨words, none⟩

/-- The scan loop of `New`: `addWord` on every line, its error discarded. -/
def New.loop : List String → Trie → Option Trie
  | [], t => some t
  | w :: ws, t =>
    match t.addWord w with
    | none => none
    | some (t', _) => New.loop ws t'

/-- The source function `New`: the returned pair `(*Trie, error)`. -/
def New (r : Reader) : Option (Option Trie × Option String) :=
  match New.loop r.lines Trie.new with
  | none => none
  | some t =>
    match r.err with
    | some e => some (none, some ("failed to scan file: " ++ e))
    | none => some (some t, none)

end trie

namespace srordle

/-- The source type `LetterStatus` with its five constants, in `iota` order. -/
inductive LetterStatus where
  | UnknownLetterStatus
  | NotInWord
  | WrongPosition
  | Correct
  | PositionNotUsed
  deriving DecidableEq, Repr

/-- The source struct `LetterAnswer`. -/
structure LetterAnswer where
  Letter : String
  Status : LetterStatus
  deriving DecidableEq, Repr

/-- The source type `Row`, a slice of booleans. -/
abbrev Row := List Bool

/-- The source type `Shape`, a slice of rows. -/
abbrev Shape := List Row

/-- The source struct `Game`. -/
structure Game where
  TargetWord : String
  Shape : Shape
  FullAttempts : Int

/-- The loop of `ToTargetWordLengths` over the remaining slots, with the loop variables
`curRun` and `out`, and the closing `if curRun > 0` after the loop.  The counters start
at zero and only grow, so they are natural numbers. -/
def Row.ToTargetWordLengths.loop : List Bool → Nat → List Nat → List Nat
  | [], curRun, out => if curRun > 0 then out ++ [curRun] else out
  | v :: rest, curRun, out =>
    if v then Row.ToTargetWordLengths.loop rest (curRun + 1) out
    else if curRun > 0 then Row.ToTargetWordLengths.loop rest 0 (out ++ [curRun])
    else Row.ToTargetWordLengths.loop rest curRun out

/-- The source method `Row.ToTargetWordLengths`. -/
def Row.ToTargetWordLengths (r : Row) : List Nat :=
  Row.ToTargetWordLengths.loop r 0 []

/-- The loop of `toStartOffsets` from slot index `i` on, with the loop variables `inWord`
and `out`. -/
def Row.toStartOffsets.loop : Nat → List Bool → Bool → List Nat → List Nat
  | _, [], _, out => out
  | i, v :: rest, inWord, out =>
    Row.toStartOffsets.loop (i + 1) rest v (if v && !inWord then out ++ [i] else out)

/-- The source method `Row.toStartOffsets`. -/
def Row.toStartOffsets (r : Row) : List Nat :=
  Row.toStartOffsets.loop 0 r false []

/-- The statement `words[len(words)-1] = append(words[len(words)-1], c)`; `none` is the
index panic on an empty `words`. -/
def appendToLast (words : List (List rune)) (c : rune) : Option (List (List rune)) :=
  match words.getLast? with
  | none => none
  | some w => some (words.dropLast ++ [w ++ [c]])

/-- The loop of `SplitGuess` over the remaining slots, with the loop variables `words`,
`guessIdx` and `prev`.  The outer `none` is a panic, `some none` is the early
`return nil, false`, `some (some words)` is the normal end of the loop. -/
def Row.SplitGuess.loop (inRune : List rune) :
    List Bool → List (List rune) → Nat → Bool → Option (Option (List (List rune)))
  | [], words, _, _ => some (some words)
  | v :: rest, words, guessIdx, prev =>
    if v then
      if guessIdx ≥ inRune.length then some none
      else
        match inRune[guessIdx]? with
        | none => none
        | some c =>
          if !prev then Row.SplitGuess.loop inRune rest (words ++ [[c]]) (guessIdx + 1) v
          else
            match appendToLast words c with
            | none => none
            | some words' => Row.SplitGuess.loop inRune rest words' (guessIdx + 1) v
    else Row.SplitGuess.loop inRune rest words guessIdx v

/-- The source method `Row.SplitGuess`: the returned pair `([]string, bool)`. -/
def Row.SplitGuess (r : Row) (input : String) : Option (List String × Bool) :=
  match Row.SplitGuess.loop input.toList r [] 0 false with
  | none => none
  | some none => some ([], false)
  | some (some words) => some (words.map String.mk, true)

/-- The source method `Game.targetFreq`; the Go map is the function giving every rune its
count, an absent key reading as zero. -/
def Game.targetFreq (g : Game) : rune → Int :=
  g.TargetWord.toList.foldl (fun out l => Function.update out l (out l + 1)) (fun _ => 0)

/-- The variables the passes of `CalcAnswer` mutate. -/
structure ScoreState where
  las : List LetterAnswer
  freq : rune → Int

/-- The inner loop `for j, l := range guess { idx := j + startOffsets[i]; ... }` of
`CalcAnswer`, run for the `i`-th guess; `body idx l` is the rest of the loop body. -/
def forEachLetter.inner (startOffsets : List Nat)
    (body : Nat → rune → ScoreState → Option ScoreState) (i : Nat) :
    List (Nat × rune) → ScoreState → Option ScoreState
  | [], s => some s
  | (j, l) :: rest, s =>
    match startOffsets[i]? with
    | none => none
    | some o =>
      match body (j + o) l s with
      | none => none
      | some s' => forEachLetter.inner startOffsets body i rest s'

/-- The loop nest `for i, guess := range guesses { for j, l := range guess { ... } }`
that each of the three passes of `CalcAnswer` runs, from guess index `i` on. -/
def forEachLetter (startOffsets : List Nat)
    (body : Nat → rune → ScoreState → Option ScoreState) :
    Nat → List String → ScoreState → Option ScoreState
  | _, [], s => some s
  | i, guess :: rest, s =>
    match forEachLetter.inner startOffsets body i (rangeString guess) s with
    | none => none
    | some s' => forEachLetter startOffsets body (i + 1) rest s'

/-- The body of the first pass: `las[idx].Letter = string(l)` and
`las[idx].Status = NotInWord`. -/
def CalcAnswer.populate (idx : Nat) (l : rune) (s : ScoreState) : Option ScoreState :=
  match s.las[idx]? with
  | none => none
  | some _ =>
    some { s with las := s.las.set idx ⟨String.singleton l, LetterStatus.NotInWord⟩ }

/-- The body of the second pass: skip unless `l == trs[idx]`, else mark the slot
`Correct` and decrement `freq[l]`. -/
def CalcAnswer.markCorrect (trs : List rune) (idx : Nat) (l : rune) (s : ScoreState) :
    Option ScoreState :=
  match trs[idx]? with
  | none => none
  | some t =>
    if l ≠ t then some s
    else
      match s.las[idx]? with
      | none => none
      | some la =>
        some { las := s.las.set idx { la with Status := LetterStatus.Correct },
               freq := Function.update s.freq l (s.freq l - 1) }

/-- The body of the third pass: skip if `freq[l] <= 0` or the slot is `Correct`, else
mark the slot `WrongPosition` and decrement `freq[l]`. -/
def CalcAnswer.markMisplaced (idx : Nat) (l : rune) (s : ScoreState) : Option ScoreState :=
  if s.freq l ≤ 0 then some s
  else
    match s.las[idx]? with
    | none => none
    | some la =>
      if la.Status = LetterStatus.Correct then some s
      else
        some { las := s.las.set idx { la with Status := LetterStatus.WrongPosition },
               freq := Function.update s.freq l (s.freq l - 1) }

/-- The source method `Game.CalcAnswer`; `none` is an index panic. -/
def Game.CalcAnswer (g : Game) (guesses : List String) (r : Row) : Option (List LetterAnswer) :=
  let freq := g.targetFreq
  let trs := g.TargetWord.toList
  let startOffsets := Row.toStartOffsets r
  let las : List LetterAnswer := trs.map (fun _ => ⟨"", LetterStatus.PositionNotUsed⟩)
  match forEachLetter startOffsets CalcAnswer.populate 0 guesses ⟨las, freq⟩ with
  | none => none
  | some s1 =>
    match forEachLetter startOffsets (CalcAnswer.markCorrect trs) 0 guesses s1 with
    | none => none
    | some s2 =>
      match forEachLetter startOffsets CalcAnswer.markMisplaced 0 guesses s2 with
      | none => none
      | some s3 => some s3.las

/-- The source struct `Guess`; the `time.Time` of `GuessedAt` is kept as an instant in
nanoseconds. -/
structure Guess where
  Words : List String
  GuessedAt : Int
  RequestedFull : Bool

/-- The test `len(words) == 1 && words[0] == g.TargetWord` that `foundTarget` applies to
the words of a guess and `serveGuess` to the sub-words of the request. -/
def Game.isTarget (g : Game) (words : List String) : Bool :=
  words.length == 1 && words[0]? == some g.TargetWord

/-- The source method `Game.foundTarget`. -/
def Game.foundTarget (g : Game) : List Guess → Bool
  | [] => false
  | gs :: rest => if g.isTarget gs.Words then true else Game.foundTarget g rest

end srordle

namespace server

open srordle trie

/-- The messages `serveGuess` passes to `errorRespf`, in source order; `notAWord` carries
the word that the message shows in upper case. -/
inductive ErrorMessage where
  | wrongShape
  | invalidGuessIndex
  | wantedGuesses (want got : Nat)
  | wrongLength (guess : String) (want : Nat)
  | notAWord (word : String)
  | neitherReal
  deriving DecidableEq, Repr

/-- What `serveGuess` writes to the client: `httpError` with a status code, the JSON
object with an `Error` message, or the JSON object with `Answer`, `Won` and `Words`. -/
inductive Response where
  | httpError (code : Nat)
  | errorResp (msg : ErrorMessage)
  | answer (Answer : List LetterAnswer) (Won : Bool) (Words : List String)
  deriving DecidableEq, Repr

/-- The first `if` chain of `serveGuess`: the target word lengths, the row and the
sub-words of the request, or the response of an early return.  The outer `none` is a panic
(a negative `GuessIndex` used as an index). -/
def serveGuess.shape (game : Game) (guess : String) (GuessIndex : Int) (UseFull : Bool) :
    Option (Except Response (List Nat × Row × List String)) :=
  if UseFull || decide (GuessIndex ≥ (game.Shape.length : Int)) then
    some (Except.ok ([7], [true, true, true, true, true, true, true], [guess]))
  else if GuessIndex < (game.Shape.length : Int) then
    if GuessIndex < 0 then none
    else
      match game.Shape[GuessIndex.toNat]? with
      | none => none
      | some row =>
        match Row.SplitGuess row guess with
        | none => none
        | some (guesses, ok) =>
          if !ok then some (Except.error (Response.errorResp ErrorMessage.wrongShape))
          else some (Except.ok (Row.ToTargetWordLengths row, row, guesses))
  else some (Except.error (Response.errorResp ErrorMessage.invalidGuessIndex))

/-- The loop of `serveGuess` over the sub-words from index `i` on, with the loop variable
`invalidWords`: the response of an early return, or `invalidWords` at the end. -/
def serveGuess.validate (dict : Trie) (targetWordLens : List Nat) :
    Nat → List String → List String → Option (Except Response (List String))
  | _, [], invalidWords => some (Except.ok invalidWords)
  | i, guess :: rest, invalidWords =>
    match targetWordLens[i]? with
    | none => none
    | some n =>
      if RuneCountInString guess ≠ (n : Int) then
        some (Except.error (Response.errorResp (ErrorMessage.wrongLength guess n)))
      else
        match dict.HasWord guess with
        | none => none
        | some (_, some _) => some (Except.error (Response.httpError 500))
        | some (ok, none) =>
          serveGuess.validate dict targetWordLens (i + 1) rest
            (if !ok then invalidWords ++ [guess] else invalidWords)

/-- The source method `server.serveGuess` from the point where the game of the day is
loaded: `dict` is `s.dict`, `guess` is `req.Guess` after `strings.ToLower`.  The outer
`none` is a panic. -/
def serveGuess (dict : Trie) (game : Game) (guess : String) (GuessIndex : Int)
    (UseFull : Bool) : Option Response :=
  match serveGuess.shape game guess GuessIndex UseFull with
  | none => none
  | some (Except.error resp) => some resp
  | some (Except.ok (targetWordLens, row, guesses)) =>
    if guesses.length ≠ targetWordLens.length then
      some (Response.errorResp
        (ErrorMessage.wantedGuesses targetWordLens.length guesses.length))
    else
      match serveGuess.validate dict targetWordLens 0 guesses [] with
      | none => none
      | some (Except.error resp) => some resp
      | some (Except.ok invalidWords) =>
        match invalidWords with
        | [w] => some (Response.errorResp (ErrorMessage.notAWord w))
        | [_, _] => some (Response.errorResp ErrorMessage.neitherReal)
        | _ =>
          match game.CalcAnswer guesses row with
          | none => none
          | some las => some (Response.answer las (game.isTarget guesses) guesses)

end server

namespace db

/-- The value of a Go `int32` that holds the mathematical integer `x` after wrap-around
(two's complement, 32 bits). -/
def wrapInt32 (x : Int) : Int :=
  (x + 2147483648) % 4294967296 - 2147483648

/-- The Go expression `x << k` on an `int32`. -/
def shl32 (x : Int) (k : Nat) : Int :=
  wrapInt32 (x * 2 ^ k)

/-- The Go expression `x & 0xFF` on a signed integer: the low eight bits of its two's
complement form. -/
def andFF (x : Int) : Int :=
  x % 256

/-- The Go conversion `byte(x)` of a signed integer: its low eight bits. -/
def toByte (x : Int) : Nat :=
  (x % 256).toNat

/-- The source struct `Date`: `Year` is an `int32`, `Month` a `time.Month` (an `int`),
`Day` an `int8`; the fields hold the integer values. -/
structure Date where
  Year : Int
  Month : Int
  Day : Int
  deriving DecidableEq, Repr

/-- The source method `Date.asBytes`; a byte is a natural number below 256. -/
def Date.asBytes (d : Date) : List Nat :=
  [toByte (andFF (shl32 d.Year 24)),
   toByte (andFF (shl32 d.Year 16)),
   toByte (andFF (shl32 d.Year 8)),
   toByte (andFF d.Year),
   toByte d.Month,
   toByte d.Day]

/-- The source function `gameKey`: the bytes of `"game:"` followed by `d.asBytes()`. -/
def gameKey (d : Date) : List Nat :=
  [103, 97, 109, 101, 58] ++ d.asBytes

end db

/-! ## Notions used to state and prove the properties -/

/-- A rune is one of the lowercase letters `a`..`z`. -/
def isAZ (r : rune) : Prop := 97 ≤ r.toNat ∧ r.toNat ≤ 122

instance : DecidablePred isAZ := fun r => by unfold isAZ; infer_instance

/-- A string is made only of the lowercase letters `a`..`z`. -/
def lowerAZ (s : String) : Prop := ∀ r ∈ s.toList, isAZ r

instance : DecidablePred lowerAZ := fun s => by unfold lowerAZ; infer_instance

namespace trie

/-- The array slot of a letter: `toIndex` as an index that is in range by construction. -/
def slotOf (r : rune) : Fin letters :=
  ⟨(r.toNat - 97) % 26, by unfold letters; omega⟩

/-- The word spelled by `rs` ends at a leaf of the layer `nodes`: the denotation of the
trie as a set of words. -/
def memberRunes : nodeArray → List rune → Bool
  | _, [] => false
  | nodes, r :: rest =>
    match nodes (slotOf r) with
    | none => false
    | some nd => if rest = [] then nd.leaf else memberRunes nd.children rest

/-- The layer `nodes` after the letters `rs` have been inserted below it: what the loop of
`addWord` computes on letters `a`..`z`. -/
def insertRunes : nodeArray → List rune → nodeArray
  | nodes, [] => nodes
  | nodes, r :: rest =>
    let cur : node :=
      match nodes (slotOf r) with
      | none => { leaf := false, letter := r, children := nodeArray.zero }
      | some nd => nd
    Function.update nodes (slotOf r)
      (some { leaf := if rest = [] then true else cur.leaf, letter := cur.letter,
              children := insertRunes cur.children rest })

end trie

namespace srordle

/-- The runs of true slots of the row suffix `s` that starts at slot `i`, as pairs (start
offset, length), when a run of `c` true slots is already open just before slot `i`. -/
def runsFrom : Nat → Nat → List Bool → List (Nat × Nat)
  | i, c, [] => if c > 0 then [(i - c, c)] else []
  | i, c, true :: s => runsFrom (i + 1) (c + 1) s
  | i, c, false :: s => (if c > 0 then [(i - c, c)] else []) ++ runsFrom (i + 1) 0 s

/-- The text `t` cut into consecutive pieces of the given lengths. -/
def chop : List Nat → List rune → List (List rune)
  | [], _ => []
  | n :: ns, t => t.take n :: chop ns (t.drop n)

/-- A loop body run over a list of (slot index, guessed rune) pairs, in order. -/
def foldBody (body : Nat → rune → ScoreState → Option ScoreState) :
    List (Nat × rune) → ScoreState → Option ScoreState
  | [], s => some s
  | (idx, l) :: rest, s =>
    match body idx l s with
    | none => none
    | some s' => foldBody body rest s'

/-- The (slot index, rune) pairs of the text `t` laid over the given runs, run by run. -/
def flatRuns : List (Nat × Nat) → List rune → List (Nat × rune)
  | [], _ => []
  | (o, n) :: rest, t => (t.take n).enumFrom o ++ flatRuns rest (t.drop n)

/-- The (slot index, rune) pairs of the text `t` laid over the true slots of the row
suffix `s` that starts at slot `i`. -/
def covered : Nat → List Bool → List rune → List (Nat × rune)
  | _, [], _ => []
  | i, false :: s, t => covered (i + 1) s t
  | i, true :: s, x :: t => (i, x) :: covered (i + 1) s t
  | i, true :: s, [] => covered (i + 1) s []

/-- The guessed rune of every slot of a row: the next unread rune of the text at a true
slot, nothing at a false slot. -/
def guessAt : List Bool → List rune → List (Option rune)
  | [], _ => []
  | false :: s, t => none :: guessAt s t
  | true :: s, x :: t => some x :: guessAt s t
  | true :: s, [] => none :: guessAt s []

/-- The (slot index, rune) pairs of the slots that hold a guessed rune, from slot `i`. -/
def coveredSlots : Nat → List (Option rune × rune) → List (Nat × rune)
  | _, [] => []
  | i, (none, _) :: sl => coveredSlots (i + 1) sl
  | i, (some x, _) :: sl => (i, x) :: coveredSlots (i + 1) sl

/-- A pass of the scorer told slot by slot: `f l t la freq` is what the loop body does at a
slot that guesses `l`, whose target rune is `t` and whose current answer is `la`. -/
def posFold (f : rune → rune → LetterAnswer → (rune → Int) → LetterAnswer × (rune → Int)) :
    List (Option rune × rune) → List LetterAnswer → (rune → Int) →
      List LetterAnswer × (rune → Int)
  | (some x, t) :: sl, la :: las, fr =>
    ((f x t la fr).1 :: (posFold f sl las (f x t la fr).2).1,
      (posFold f sl las (f x t la fr).2).2)
  | (none, _) :: sl, la :: las, fr =>
    (la :: (posFold f sl las fr).1, (posFold f sl las fr).2)
  | [], las, fr => (las, fr)
  | _ :: _, [], fr => ([], fr)

/-- The first pass at one slot. -/
def stepPopulate (l _t : rune) (_la : LetterAnswer) (fr : rune → Int) :
    LetterAnswer × (rune → Int) :=
  (⟨String.singleton l, LetterStatus.NotInWord⟩, fr)

/-- The second pass at one slot. -/
def stepCorrect (l t : rune) (la : LetterAnswer) (fr : rune → Int) :
    LetterAnswer × (rune → Int) :=
  if l ≠ t then (la, fr)
  else ({ la with Status := LetterStatus.Correct }, Function.update fr l (fr l - 1))

/-- The third pass at one slot. -/
def stepMisplaced (l _t : rune) (la : LetterAnswer) (fr : rune → Int) :
    LetterAnswer × (rune → Int) :=
  if fr l ≤ 0 then (la, fr)
  else if la.Status = LetterStatus.Correct then (la, fr)
  else ({ la with Status := LetterStatus.WrongPosition }, Function.update fr l (fr l - 1))

/-- The answer of a slot after the first two passes. -/
def afterCorrect : Option rune × rune → LetterAnswer
  | (none, _) => ⟨"", LetterStatus.PositionNotUsed⟩
  | (some x, t) =>
    ⟨String.singleton x, if x = t then LetterStatus.Correct else LetterStatus.NotInWord⟩

/-- The answers after the third pass, told slot by slot from the frequencies `fr` left by
the second pass. -/
def scoreSlots : (rune → Int) → List (Option rune × rune) → List LetterAnswer
  | _, [] => []
  | fr, (none, _) :: sl => ⟨"", LetterStatus.PositionNotUsed⟩ :: scoreSlots fr sl
  | fr, (some x, t) :: sl =>
    if x = t then ⟨String.singleton x, LetterStatus.Correct⟩ :: scoreSlots fr sl
    else if fr x ≤ 0 then ⟨String.singleton x, LetterStatus.NotInWord⟩ :: scoreSlots fr sl
    else ⟨String.singleton x, LetterStatus.WrongPosition⟩
      :: scoreSlots (Function.update fr x (fr x - 1)) sl

/-- The answer of a slot after the first pass. -/
def afterPopulate : Option rune × rune → LetterAnswer
  | (none, _) => ⟨"", LetterStatus.PositionNotUsed⟩
  | (some x, _) => ⟨String.singleton x, LetterStatus.NotInWord⟩

/-- The slot guesses the rune `c` and the target has `c` at that slot. -/
def exactAt (c : rune) (p : Option rune × rune) : Bool :=
  decide (p.1 = some c ∧ p.2 = c)

/-- The slots of a scoring call: for every slot the guessed rune, if the row covers the
slot, next to the target rune of the slot. -/
def slotsOf (g : Game) (r : Row) (text : String) : List (Option rune × rune) :=
  (guessAt r text.toList).zip g.TargetWord.toList

/-- The frequency table after the second pass: the count of the rune in the whole target
minus the number of slots that guess it exactly. -/
def freqAfterCorrect (g : Game) (sl : List (Option rune × rune)) (c : rune) : Int :=
  g.targetFreq c - (sl.countP (exactAt c) : Int)

/-- The answer is that of a covered slot that guesses the rune `c` and is not `Correct`. -/
def guessesOpen (c : rune) (la : LetterAnswer) : Bool :=
  decide (la.Letter = String.singleton c ∧ la.Status ≠ LetterStatus.Correct)

/-- The answer is that of a covered slot that guesses the rune `c` and is `Correct`. -/
def guessesCorrect (c : rune) (la : LetterAnswer) : Bool :=
  decide (la.Letter = String.singleton c ∧ la.Status = LetterStatus.Correct)

/-- The number `m` of claim C9 for the rune `c`: the smaller of the number of covered,
not `Correct` slots of `las` that guess `c`, and the occurrences of `c` in the whole target
minus the number of `Correct` slots that guess `c`. -/
def misplacedQuota (g : Game) (las : List LetterAnswer) (c : rune) : Int :=
  min (las.countP (guessesOpen c) : Int)
    ((g.TargetWord.toList.count c : Int) - (las.countP (guessesCorrect c) : Int))

/-- The answer is that of a slot that guesses the rune `c` and is `Correct` or
`WrongPosition`. -/
def guessesMatched (c : rune) (la : LetterAnswer) : Bool :=
  decide (la.Letter = String.singleton c ∧
    (la.Status = LetterStatus.Correct ∨ la.Status = LetterStatus.WrongPosition))

end srordle

namespace trie

/-- The node reached from the layer `nodes` along a path of letters, each letter choosing
the child at its index; `none` when the path is empty or runs into a nil slot. -/
def nodeAt : nodeArray → List rune → Option node
  | _, [] => none
  | nodes, r :: rest =>
    match nodes (slotOf r) with
    | none => none
    | some nd => if rest = [] then some nd else nodeAt nd.children rest

/-- Every node of the layer, reached along a path of letters a-z, carries the last letter
of its path in its `letter` field. -/
def LetterOK (nodes : nodeArray) : Prop :=
  ∀ (p : List rune) (nd : node), (∀ r ∈ p, isAZ r) → nodeAt nodes p = some nd →
    p.getLast? = some nd.letter

end trie

namespace srordle

/-- The (slot index, rune) pairs of the sub-words laid from their start offsets: the
`j`-th character of the `i`-th sub-word at slot `startOffsets[i] + j`, `j` counting
characters. -/
def placed : List Nat → List String → List (Nat × rune)
  | o :: os, w :: ws => w.toList.enumFrom o ++ placed os ws
  | _, _ => []

end srordle

/-! ## Properties -/

theorem runeWidth_of_isAZ {r : rune} (h : isAZ r) : runeWidth r = 1 := by
  unfold isAZ at h
  unfold runeWidth
  rw [if_pos (by omega)]

theorem isAZ_of_check {r : rune} (h2 : IsLower r = true) : isAZ r := by
  unfold IsLower at h2
  simpa [isAZ] using h2

theorem rune_eq_of_toNat_eq {a b : rune} (h : a.toNat = b.toNat) : a = b := by
  apply Char.ext
  apply UInt32.ext
  exact h

namespace trie

theorem checkInput_loop_none (input : String) (rs : List rune) (i : Nat) :
    checkInput.loop input (rangeRunes i rs) = none ↔ ∀ r ∈ rs, isAZ r := by
  induction rs generalizing i with
  | nil => simp [rangeRunes, checkInput.loop]
  | cons r rest ih =>
    simp only [rangeRunes, checkInput.loop, List.forall_mem_cons]
    by_cases h1 : RuneLen r = 1
    · by_cases h2 : IsLower r = true
      · have haz := isAZ_of_check h2
        simp [h1, h2, ih, haz]
      · have : ¬ isAZ r := by
          intro haz
          apply h2
          simpa [IsLower, isAZ] using haz
        simp [h1, h2, this]
    · have : ¬ isAZ r := by
        intro haz
        apply h1
        simp [RuneLen, runeWidth_of_isAZ haz]
      simp [h1, this]

theorem checkInput_none_iff (s : String) : checkInput s = none ↔ lowerAZ s :=
  checkInput_loop_none s s.toList 0

theorem toIndex_of_isAZ {r : rune} (h : isAZ r) : toIndex r = some ((r.toNat : Int) - 97) := by
  simp [toIndex, runeWidth_of_isAZ h, aValue]

theorem index_of_isAZ {r : rune} (h : isAZ r) (nodes : nodeArray) :
    nodes.index ((r.toNat : Int) - 97) = some (nodes (slotOf r)) := by
  unfold isAZ at h
  have hr : 0 ≤ (r.toNat : Int) - 97 ∧ (r.toNat : Int) - 97 < (letters : Int) := by
    unfold letters; omega
  unfold nodeArray.index
  rw [dif_pos hr]
  have hk : (⟨((r.toNat : Int) - 97).toNat, by have := hr.1; have := hr.2; omega⟩ : Fin letters)
      = slotOf r := by
    apply Fin.ext
    simp only [slotOf]
    omega
  rw [hk]

theorem store_of_isAZ {r : rune} (h : isAZ r) (nodes : nodeArray) (v : Option node) :
    nodes.store ((r.toNat : Int) - 97) v = some (Function.update nodes (slotOf r) v) := by
  unfold isAZ at h
  have hr : 0 ≤ (r.toNat : Int) - 97 ∧ (r.toNat : Int) - 97 < (letters : Int) := by
    unfold letters; omega
  unfold nodeArray.store
  rw [dif_pos hr]
  have hk : (⟨((r.toNat : Int) - 97).toNat, by have := hr.1; have := hr.2; omega⟩ : Fin letters)
      = slotOf r := by
    apply Fin.ext
    simp only [slotOf]
    omega
  rw [hk]

theorem slotOf_inj {a b : rune} (ha : isAZ a) (hb : isAZ b) (h : slotOf a = slotOf b) : a = b := by
  unfold isAZ at ha hb
  apply rune_eq_of_toNat_eq
  have := congrArg Fin.val h
  simp only [slotOf] at this
  omega

theorem memberRunes_zero (rs : List rune) : memberRunes nodeArray.zero rs = false := by
  cases rs with
  | nil => rfl
  | cons r rest => simp [memberRunes, nodeArray.zero]

theorem HasWord_loop_eq (n : Int) (rs : List rune) (i : Nat) (nodes : nodeArray)
    (haz : ∀ r ∈ rs, isAZ r) (hn : (i : Int) + rs.length = n) :
    HasWord.loop n (rangeRunes i rs) nodes = some (memberRunes nodes rs, none) := by
  induction rs generalizing i nodes with
  | nil => simp [rangeRunes, HasWord.loop, memberRunes]
  | cons r rest ih =>
    have hr : isAZ r := haz r (List.mem_cons_self _ _)
    have hrest : ∀ x ∈ rest, isAZ x := fun x hx => haz x (List.mem_cons_of_mem _ hx)
    simp only [rangeRunes, HasWord.loop, toIndex_of_isAZ hr, index_of_isAZ hr, memberRunes,
      runeWidth_of_isAZ hr]
    cases hnd : nodes (slotOf r) with
    | none => rfl
    | some nd =>
      simp only
      by_cases hlast : rest = []
      · subst hlast
        have : (i : Int) = n - 1 := by simp at hn; omega
        simp [this]
      · have hlen : 0 < rest.length := List.length_pos.mpr hlast
        have : ¬ (i : Int) = n - 1 := by simp at hn; omega
        rw [if_neg this, if_neg hlast]
        apply ih
        · exact hrest
        · simp at hn ⊢; omega

theorem addWord_loop_eq (n : Int) (rs : List rune) (i : Nat) (nodes : nodeArray)
    (haz : ∀ r ∈ rs, isAZ r) (hn : (i : Int) + rs.length = n) :
    addWord.loop n (rangeRunes i rs) nodes = some (insertRunes nodes rs) := by
  induction rs generalizing i nodes with
  | nil => simp [rangeRunes, addWord.loop, insertRunes]
  | cons r rest ih =>
    have hr : isAZ r := haz r (List.mem_cons_self _ _)
    have hrest : ∀ x ∈ rest, isAZ x := fun x hx => haz x (List.mem_cons_of_mem _ hx)
    have hi : (i : Int) = n - 1 ↔ rest = [] := by
      constructor
      · intro h
        apply List.eq_nil_of_length_eq_zero
        simp at hn; omega
      · intro h
        subst h
        simp at hn; omega
    simp only [rangeRunes, addWord.loop, toIndex_of_isAZ hr, index_of_isAZ hr, insertRunes,
      runeWidth_of_isAZ hr]
    rw [ih (i + 1) _ hrest (by simp at hn ⊢; omega)]
    simp only [store_of_isAZ hr, hi]

theorem memberRunes_insertRunes (w : List rune) (nodes : nodeArray) (v : List rune)
    (hw : ∀ r ∈ w, isAZ r) (hv : ∀ r ∈ v, isAZ r) :
    memberRunes (insertRunes nodes w) v = (decide (v = w ∧ w ≠ []) || memberRunes nodes v) := by
  induction w generalizing nodes v with
  | nil => simp [insertRunes]
  | cons r rest ih =>
    have hr : isAZ r := hw r (List.mem_cons_self _ _)
    have hrest : ∀ x ∈ rest, isAZ x := fun x hx => hw x (List.mem_cons_of_mem _ hx)
    cases v with
    | nil => simp [memberRunes]
    | cons a vs =>
      have ha : isAZ a := hv a (List.mem_cons_self _ _)
      have hvs : ∀ x ∈ vs, isAZ x := fun x hx => hv x (List.mem_cons_of_mem _ hx)
      by_cases hs : slotOf a = slotOf r
      · have har : a = r := slotOf_inj ha hr hs
        subst har
        simp only [memberRunes, insertRunes, Function.update_same]
        by_cases hvs0 : vs = []
        · subst hvs0
          cases hnd : nodes (slotOf a) with
          | none => by_cases hrest0 : rest = [] <;> simp [hrest0, eq_comm]
          | some nd => by_cases hrest0 : rest = [] <;> simp [hrest0, eq_comm]
        · rw [if_neg hvs0, ih _ _ hrest hvs]
          cases hnd : nodes (slotOf a) with
          | none =>
            simp only [memberRunes_zero]
            by_cases hvr : vs = rest
            · subst hvr; simp [hvs0]
            · simp [hvr]
          | some nd =>
            simp only [if_neg hvs0]
            by_cases hvr : vs = rest
            · subst hvr; simp [hvs0]
            · simp [hvr]
      · have har : a ≠ r := fun h => hs (by rw [h])
        simp only [memberRunes, insertRunes, Function.update_noteq hs]
        simp [har]

theorem HasWord_of_lowerAZ (t : Trie) (s : String) (h : lowerAZ s) :
    t.HasWord s = some (memberRunes t.roots s.toList, none) := by
  unfold Trie.HasWord
  rw [(checkInput_none_iff s).mpr h]
  exact HasWord_loop_eq _ _ 0 _ h (by simp [RuneCountInString])

theorem addWord_of_lowerAZ (t : Trie) (s : String) (h : lowerAZ s) :
    t.addWord s = some ({ t with roots := insertRunes t.roots s.toList }, none) := by
  unfold Trie.addWord
  rw [(checkInput_none_iff s).mpr h]
  simp only [rangeString]
  rw [addWord_loop_eq _ _ 0 _ h (by simp [RuneCountInString])]

theorem addWord_of_not_lowerAZ (t : Trie) (s : String) (h : ¬ lowerAZ s) :
    ∃ e, t.addWord s = some (t, some e) := by
  unfold Trie.addWord
  cases hc : checkInput s with
  | none => exact absurd ((checkInput_none_iff s).mp hc) h
  | some e => exact ⟨e, rfl⟩

theorem mk_eq_iff (v : List rune) (w : String) : String.mk v = w ↔ v = w.toList := by
  constructor
  · intro h; rw [← h]; rfl
  · intro h; rw [h]; cases w; rfl

theorem toList_ne_nil_iff (s : String) : s.toList ≠ [] ↔ s ≠ "" := by
  constructor
  · intro h hs0; apply h; rw [hs0]; rfl
  · intro h hs0; apply h; cases s; simp only [String.toList] at hs0; subst hs0; rfl

theorem New_loop_spec (ws : List String) (t : Trie) :
    ∃ t', New.loop ws t = some t' ∧ t'.size = t.size ∧
      ∀ v : List rune, (∀ r ∈ v, isAZ r) →
        memberRunes t'.roots v = (decide (v ≠ [] ∧ String.mk v ∈ ws) || memberRunes t.roots v) := by
  induction ws generalizing t with
  | nil => exact ⟨t, rfl, rfl, by simp⟩
  | cons w ws ih =>
    by_cases hw : lowerAZ w
    · obtain ⟨t', h1, h2, h3⟩ := ih { t with roots := insertRunes t.roots w.toList }
      refine ⟨t', ?_, h2, ?_⟩
      · simp only [New.loop, addWord_of_lowerAZ t w hw, h1]
      · intro v hv
        rw [h3 v hv, memberRunes_insertRunes _ _ _ hw hv]
        have hmk := mk_eq_iff v w
        by_cases hv0 : v = []
        · subst hv0
          simp
        · by_cases hvw : v = w.toList
          · have hw0 : w.toList ≠ [] := by rw [← hvw]; exact hv0
            have hmem : String.mk v ∈ w :: ws := by
              rw [hmk.mpr hvw]; exact List.mem_cons_self _ _
            have h1 : decide (v = w.toList ∧ w.toList ≠ []) = true := decide_eq_true ⟨hvw, hw0⟩
            have h2 : decide (v ≠ [] ∧ String.mk v ∈ w :: ws) = true := decide_eq_true ⟨hv0, hmem⟩
            simp only [h1, h2, Bool.true_or, Bool.or_true]
          · have hne : ¬ String.mk v = w := fun h => hvw (hmk.mp h)
            have h1 : decide (v = w.toList ∧ w.toList ≠ []) = false :=
              decide_eq_false (fun h => hvw h.1)
            have h2 : decide (v ≠ [] ∧ String.mk v ∈ w :: ws)
                = decide (v ≠ [] ∧ String.mk v ∈ ws) := by
              apply decide_eq_decide.mpr
              simp only [List.mem_cons, hne, false_or]
            simp only [h1, h2, Bool.false_or]
    · obtain ⟨e, he⟩ := addWord_of_not_lowerAZ t w hw
      obtain ⟨t', h1, h2, h3⟩ := ih t
      refine ⟨t', ?_, h2, ?_⟩
      · simp only [New.loop, he, h1]
      · intro v hv
        rw [h3 v hv]
        have hne : ¬ String.mk v = w := by
          intro h
          apply hw
          rw [← h]
          exact hv
        have h2 : decide (v ≠ [] ∧ String.mk v ∈ w :: ws)
            = decide (v ≠ [] ∧ String.mk v ∈ ws) := by
          apply decide_eq_decide.mpr
          simp only [List.mem_cons, hne, false_or]
        rw [h2]

theorem New_ofWords_spec (ws : List String) :
    ∃ t, New (Reader.ofWords ws) = some (some t, none) ∧ t.size = 0 ∧
      ∀ s : String, lowerAZ s →
        t.HasWord s = some (decide (s ≠ "" ∧ s ∈ ws), none) := by
  obtain ⟨t, h1, h2, h3⟩ := New_loop_spec ws Trie.new
  refine ⟨t, ?_, h2, ?_⟩
  · simp [New, Reader.ofWords, h1]
  · intro s hs
    rw [HasWord_of_lowerAZ t s hs, h3 s.toList hs]
    have hmk : String.mk s.toList = s := (mk_eq_iff _ _).mpr rfl
    have hd : decide (s.toList ≠ [] ∧ String.mk s.toList ∈ ws) = decide (s ≠ "" ∧ s ∈ ws) := by
      apply decide_eq_decide.mpr
      rw [hmk, toList_ne_nil_iff]
    rw [hd]
    simp only [Trie.new, memberRunes_zero, Bool.or_false]

/-- C1: for every list of words given to `New` and every non-empty word `w` of the list
made only of the letters a-z, `New` returns a trie without error and `HasWord(w)` on it
returns `(true, nil)`. -/
theorem HasWord_true_of_listed (ws : List String) (w : String)
    (hmem : w ∈ ws) (hne : w ≠ "") (haz : lowerAZ w) :
    ∃ t, New (Reader.ofWords ws) = some (some t, none) ∧ t.HasWord w = some (true, none) := by
  obtain ⟨t, h1, _, h3⟩ := New_ofWords_spec ws
  refine ⟨t, h1, ?_⟩
  rw [h3 w haz, decide_eq_true ⟨hne, hmem⟩]

/-- Witness of C1: the word list `car, cat` and the word `cat`. -/
theorem HasWord_true_of_listed_witness :
    ("cat" ∈ ["car", "cat"] ∧ "cat" ≠ "" ∧ lowerAZ "cat") ∧
    ∃ t, New (Reader.ofWords ["car", "cat"]) = some (some t, none) ∧
      t.HasWord "cat" = some (true, none) :=
  ⟨⟨by decide, by decide, by decide⟩,
    HasWord_true_of_listed ["car", "cat"] "cat" (by decide) (by decide) (by decide)⟩

/-- C2: for every list of words given to `New` and every string `w` made only of the
letters a-z that is not an element of the list (a proper prefix of a listed word, an
extension of one, the empty string, or anything else), `New` returns a trie without error
and `HasWord(w)` on it returns `(false, nil)`. -/
theorem HasWord_false_of_not_listed (ws : List String) (w : String)
    (hmem : w ∉ ws) (haz : lowerAZ w) :
    ∃ t, New (Reader.ofWords ws) = some (some t, none) ∧ t.HasWord w = some (false, none) := by
  obtain ⟨t, h1, _, h3⟩ := New_ofWords_spec ws
  refine ⟨t, h1, ?_⟩
  rw [h3 w haz, decide_eq_false (fun h => hmem h.2)]

/-- Witness of C2: the proper prefix `aardv` of the only listed word `aardvark`. -/
theorem HasWord_false_of_not_listed_witness :
    ("aardv" ∉ ["aardvark"] ∧ lowerAZ "aardv") ∧
    ∃ t, New (Reader.ofWords ["aardvark"]) = some (some t, none) ∧
      t.HasWord "aardv" = some (false, none) :=
  ⟨⟨by decide, by decide⟩,
    HasWord_false_of_not_listed ["aardvark"] "aardv" (by decide) (by decide)⟩

/-- C3: for every trie and every input string, `HasWord` returns an error exactly when the
string holds a character outside a-z, and then the boolean is `false` next to a non-nil
error (never `(false, nil)`); it returns a boolean with a nil error exactly when the
string is made only of a-z; it never panics. -/
theorem HasWord_error_iff (t : Trie) (s : String) :
    ((∃ e, t.HasWord s = some (false, some e)) ↔ ∃ r ∈ s.toList, ¬ isAZ r) ∧
    ((∃ b, t.HasWord s = some (b, none)) ↔ ∀ r ∈ s.toList, isAZ r) ∧
    (∀ b e, t.HasWord s = some (b, some e) → b = false) ∧
    t.HasWord s ≠ none := by
  by_cases h : lowerAZ s
  · have hw := HasWord_of_lowerAZ t s h
    refine ⟨⟨?_, ?_⟩, ⟨fun _ => h, fun _ => ⟨_, hw⟩⟩, ?_, ?_⟩
    · rintro ⟨e, he⟩
      rw [hw] at he
      simp at he
    · rintro ⟨r, hr, hnot⟩
      exact absurd (h r hr) hnot
    · intro b e he
      rw [hw] at he
      simp at he
    · rw [hw]; simp
  · have hc : checkInput s ≠ none := fun hc => h ((checkInput_none_iff s).mp hc)
    obtain ⟨e, he⟩ := Option.ne_none_iff_exists'.mp hc
    have hw : t.HasWord s = some (false, some e) := by
      unfold Trie.HasWord
      rw [he]
    refine ⟨⟨fun _ => ?_, fun _ => ⟨e, hw⟩⟩, ⟨?_, fun h' => absurd h' h⟩, ?_, ?_⟩
    · unfold lowerAZ at h
      push_neg at h
      exact h
    · rintro ⟨b, hb⟩
      rw [hw] at hb
      simp at hb
    · intro b e' hb
      rw [hw] at hb
      simp at hb
      exact hb.1
    · rw [hw]; simp

/-- The `size` field is never written: whatever the list, `Size()` of the trie `New`
builds is zero. -/
theorem Size_New_eq_zero (ws : List String) :
    ∃ t, New (Reader.ofWords ws) = some (some t, none) ∧ t.Size = 0 := by
  obtain ⟨t, h1, h2, _⟩ := New_ofWords_spec ws
  exact ⟨t, h1, h2⟩

/-- C4 fails on the code: the trie built from the one-word list `cat` holds the word
`cat`, yet its `Size()` is 0, not 1. -/
theorem Size_of_one_word_list :
    ∃ t, New (Reader.ofWords ["cat"]) = some (some t, none) ∧
      t.HasWord "cat" = some (true, none) ∧ t.Size = 0 := by
  refine ⟨_, rfl, ?_, ?_⟩
  · decide
  · decide

end trie

namespace srordle

theorem lengths_loop_eq (s : List Bool) (i c : Nat) (out : List Nat) :
    Row.ToTargetWordLengths.loop s c out = out ++ (runsFrom i c s).map Prod.snd := by
  induction s generalizing i c out with
  | nil =>
    by_cases hc : c > 0 <;> simp [Row.ToTargetWordLengths.loop, runsFrom, hc]
  | cons v s ih =>
    cases v with
    | true => simp [Row.ToTargetWordLengths.loop, runsFrom, ih (i + 1)]
    | false =>
      by_cases hc : c > 0
      · simp [Row.ToTargetWordLengths.loop, runsFrom, hc, ih (i + 1)]
      · have hc0 : c = 0 := by omega
        subst hc0
        simp [Row.ToTargetWordLengths.loop, runsFrom, ih (i + 1)]

theorem offsets_loop_acc (s : List Bool) (i : Nat) (b : Bool) (out : List Nat) :
    Row.toStartOffsets.loop i s b out = out ++ Row.toStartOffsets.loop i s b [] := by
  induction s generalizing i b out with
  | nil => simp [Row.toStartOffsets.loop]
  | cons v s ih =>
    simp only [Row.toStartOffsets.loop]
    rw [ih (i + 1) v, ih (i + 1) v (if (v && !b) = true then [] ++ [i] else [])]
    by_cases h : (v && !b) = true <;> simp [h]

theorem offsets_loop_eq (s : List Bool) (i c : Nat) :
    (if c > 0 then [i - c] else []) ++ Row.toStartOffsets.loop i s (decide (c > 0)) []
      = (runsFrom i c s).map Prod.fst := by
  induction s generalizing i c with
  | nil =>
    by_cases hc : c > 0 <;> simp [Row.toStartOffsets.loop, runsFrom, hc]
  | cons v s ih =>
    cases v with
    | true =>
      have h := ih (i + 1) (c + 1)
      simp only [Nat.add_sub_add_right, gt_iff_lt, Nat.zero_lt_succ, if_true, decide_True] at h
      simp only [Row.toStartOffsets.loop, runsFrom, ← h]
      by_cases hc : c > 0
      · simp [hc]
      · have hc0 : c = 0 := by omega
        subst hc0
        rw [offsets_loop_acc]
        simp
    | false =>
      have h := ih (i + 1) 0
      simp only [gt_iff_lt, Nat.lt_irrefl, if_false, decide_False, List.nil_append] at h
      simp only [Row.toStartOffsets.loop, runsFrom, List.map_append, ← h]
      by_cases hc : c > 0 <;> simp [hc]

theorem ToTargetWordLengths_eq (r : Row) :
    Row.ToTargetWordLengths r = (runsFrom 0 0 r).map Prod.snd := by
  simp [Row.ToTargetWordLengths, lengths_loop_eq r 0]

theorem toStartOffsets_eq (r : Row) :
    Row.toStartOffsets r = (runsFrom 0 0 r).map Prod.fst := by
  have h := offsets_loop_eq r 0 0
  simpa [Row.toStartOffsets] using h

theorem runsFrom_lower (s : List Bool) (i c : Nat) :
    ∀ p ∈ runsFrom i c s, i - c ≤ p.1 ∧ 1 ≤ p.2 := by
  induction s generalizing i c with
  | nil =>
    intro p hp
    by_cases hc : c > 0
    · simp [runsFrom, hc] at hp
      subst hp
      simp; omega
    · simp [runsFrom, hc] at hp
  | cons v s ih =>
    intro p hp
    cases v with
    | true =>
      have := ih (i + 1) (c + 1) p hp
      omega
    | false =>
      simp only [runsFrom, List.mem_append] at hp
      rcases hp with hp | hp
      · by_cases hc : c > 0
        · simp [hc] at hp
          subst hp
          simp; omega
        · simp [hc] at hp
      · have := ih (i + 1) 0 p hp
        omega

theorem runsFrom_pairwise (s : List Bool) (i c : Nat) (hci : c ≤ i) :
    (runsFrom i c s).Pairwise (fun a b => a.1 + a.2 < b.1) := by
  induction s generalizing i c with
  | nil =>
    by_cases hc : c > 0 <;> simp [runsFrom, hc]
  | cons v s ih =>
    cases v with
    | true => exact ih (i + 1) (c + 1) (by omega)
    | false =>
      simp only [runsFrom]
      by_cases hc : c > 0
      · simp only [hc, if_true, List.singleton_append, List.pairwise_cons]
        refine ⟨?_, ih (i + 1) 0 (by omega)⟩
        intro p hp
        have := (runsFrom_lower s (i + 1) 0 p hp).1
        show i - c + c < p.1
        omega
      · simp only [hc, if_false, List.nil_append]
        exact ih (i + 1) 0 (by omega)

theorem runsFrom_sum (s : List Bool) (i c : Nat) :
    ((runsFrom i c s).map Prod.snd).sum = c + s.count true := by
  induction s generalizing i c with
  | nil =>
    by_cases hc : c > 0
    · simp [runsFrom, hc]
    · simp [runsFrom, hc]; omega
  | cons v s ih =>
    cases v with
    | true =>
      simp only [runsFrom, ih (i + 1) (c + 1), List.count_cons_self]
      omega
    | false =>
      simp only [runsFrom, List.map_append, List.sum_append, ih (i + 1) 0]
      by_cases hc : c > 0
      · simp [hc]
      · simp [hc]; omega

theorem runsFrom_props (r s : List Bool) (i c : Nat) (hci : c ≤ i)
    (hsuf : ∀ j, r[i + j]? = s[j]?)
    (hopen : ∀ k, i - c ≤ k → k < i → r[k]? = some true)
    (hstart : i - c = 0 ∨ r[i - c - 1]? = some false) :
    ∀ p ∈ runsFrom i c s,
      (∀ k, p.1 ≤ k → k < p.1 + p.2 → r[k]? = some true) ∧
      (p.1 = 0 ∨ r[p.1 - 1]? = some false) ∧
      (p.1 + p.2 = r.length ∨ r[p.1 + p.2]? = some false) := by
  induction s generalizing i c with
  | nil =>
    intro p hp
    by_cases hc : c > 0
    · simp only [runsFrom, hc, if_true, List.mem_singleton] at hp
      subst hp
      refine ⟨fun k h1 h2 => hopen k h1 (by simp only at h2; omega), hstart, Or.inl ?_⟩
      have h0 := hsuf 0
      simp only [Nat.add_zero, List.getElem?_nil] at h0
      have hle : r.length ≤ i := List.getElem?_eq_none_iff.mp h0
      have h1 := hopen (i - 1) (by omega) (by omega)
      have hlt : i - 1 < r.length := by
        obtain ⟨h, _⟩ := List.getElem?_eq_some.mp h1
        exact h
      show i - c + c = r.length
      omega
    · simp [runsFrom, hc] at hp
  | cons v s ih =>
    have h0 : r[i]? = some v := by simpa using hsuf 0
    have hsuf' : ∀ j, r[i + 1 + j]? = s[j]? := by
      intro j
      have := hsuf (j + 1)
      simp only [List.getElem?_cons_succ] at this
      rw [← this]
      congr 1
      omega
    cases v with
    | true =>
      intro p hp
      apply ih (i + 1) (c + 1) (by omega) hsuf' _ _ p hp
      · intro k h1 h2
        by_cases hk : k = i
        · rw [hk]; exact h0
        · exact hopen k (by omega) (by omega)
      · simpa using hstart
    | false =>
      intro p hp
      simp only [runsFrom, List.mem_append] at hp
      rcases hp with hp | hp
      · by_cases hc : c > 0
        · simp only [hc, if_true, List.mem_singleton] at hp
          subst hp
          refine ⟨fun k h1 h2 => hopen k h1 (by simp only at h2; omega), hstart, Or.inr ?_⟩
          show r[i - c + c]? = some false
          rw [Nat.sub_add_cancel hci]
          exact h0
        · simp [hc] at hp
      · apply ih (i + 1) 0 (by omega) hsuf' _ _ p hp
        · intro k h1 h2
          omega
        · right
          simpa using h0

theorem runsFrom_cover (r s : List Bool) (i c : Nat) (hci : c ≤ i)
    (hsuf : ∀ j, r[i + j]? = s[j]?) :
    ∀ k, i - c ≤ k → r[k]? = some true →
      ∃ p ∈ runsFrom i c s, p.1 ≤ k ∧ k < p.1 + p.2 := by
  induction s generalizing i c with
  | nil =>
    intro k hk hr
    have h0 := hsuf 0
    simp only [Nat.add_zero, List.getElem?_nil] at h0
    have hle : r.length ≤ i := List.getElem?_eq_none_iff.mp h0
    obtain ⟨hlt, _⟩ := List.getElem?_eq_some.mp hr
    have hc : c > 0 := by omega
    refine ⟨(i - c, c), by simp [runsFrom, hc], hk, ?_⟩
    show k < i - c + c
    omega
  | cons v s ih =>
    have h0 : r[i]? = some v := by simpa using hsuf 0
    have hsuf' : ∀ j, r[i + 1 + j]? = s[j]? := by
      intro j
      have := hsuf (j + 1)
      simp only [List.getElem?_cons_succ] at this
      rw [← this]
      congr 1
      omega
    intro k hk hr
    cases v with
    | true =>
      exact ih (i + 1) (c + 1) (by omega) hsuf' k (by omega) hr
    | false =>
      by_cases hki : k < i
      · have hc : c > 0 := by omega
        refine ⟨(i - c, c), by simp [runsFrom, hc], hk, ?_⟩
        show k < i - c + c
        omega
      · by_cases hki' : k = i
        · rw [hki', h0] at hr
          simp at hr
        · obtain ⟨p, hp, h1, h2⟩ := ih (i + 1) 0 (by omega) hsuf' k (by omega) hr
          exact ⟨p, by simp only [runsFrom, List.mem_append]; exact Or.inr hp, h1, h2⟩

/-- C7: for every row, `ToTargetWordLengths` and `toStartOffsets` have the same length and
describe exactly the maximal runs of true slots, left to right: the `i`-th offset `o` and
the `i`-th length `n` satisfy `n >= 1`, slots `o..o+n-1` are true, slot `o-1` is false or
`o = 0`, slot `o+n` is false or `o+n` is the row width; the offsets are strictly
increasing; every true slot lies in exactly one run; the lengths sum to the number of true
slots. -/
theorem lengths_offsets_are_maximal_runs (r : Row) :
    (Row.ToTargetWordLengths r).length = (Row.toStartOffsets r).length ∧
    (∀ i : Nat, i < (Row.toStartOffsets r).length →
      ∃ o n : Nat, (Row.toStartOffsets r)[i]? = some o ∧ (Row.ToTargetWordLengths r)[i]? = some n ∧
        1 ≤ n ∧ (∀ k, o ≤ k → k < o + n → r[k]? = some true) ∧
        (o = 0 ∨ r[o - 1]? = some false) ∧
        (o + n = r.length ∨ r[o + n]? = some false)) ∧
    (Row.toStartOffsets r).Pairwise (fun (a b : Nat) => a < b) ∧
    (∀ k, r[k]? = some true →
      ∃! i : Nat, ∃ o n : Nat, (Row.toStartOffsets r)[i]? = some o ∧
        (Row.ToTargetWordLengths r)[i]? = some n ∧ o ≤ k ∧ k < o + n) ∧
    (Row.ToTargetWordLengths r).sum = r.count true := by
  have hsuf : ∀ j, r[0 + j]? = r[j]? := fun j => by rw [Nat.zero_add]
  have hprops := runsFrom_props r r 0 0 (le_refl 0) hsuf (fun k _ h => absurd h (by omega))
    (Or.inl rfl)
  have hcover := runsFrom_cover r r 0 0 (le_refl 0) hsuf
  have hlower := runsFrom_lower r 0 0
  have hpw := runsFrom_pairwise r 0 0 (le_refl 0)
  rw [ToTargetWordLengths_eq, toStartOffsets_eq]
  have hidx : ∀ (i o n : Nat), ((runsFrom 0 0 r).map Prod.fst)[i]? = some o →
      ((runsFrom 0 0 r).map Prod.snd)[i]? = some n → (runsFrom 0 0 r)[i]? = some (o, n) := by
    intro i o n h1 h2
    simp only [List.getElem?_map, Option.map_eq_some'] at h1 h2
    obtain ⟨p, hp, hp1⟩ := h1
    obtain ⟨q, hq, hq2⟩ := h2
    rw [hp] at hq
    cases hq
    rw [hp, ← hp1, ← hq2]
  refine ⟨by simp, ?_, ?_, ?_, ?_⟩
  · intro i hi
    simp only [List.length_map] at hi
    have hp : (runsFrom 0 0 r)[i] ∈ runsFrom 0 0 r := List.getElem_mem _
    obtain ⟨h1, h2, h3⟩ := hprops _ hp
    refine ⟨(runsFrom 0 0 r)[i].1, (runsFrom 0 0 r)[i].2, ?_, ?_, (hlower _ hp).2, h1, h2, h3⟩
    · simp [List.getElem?_eq_getElem hi]
    · simp [List.getElem?_eq_getElem hi]
  · rw [List.pairwise_map]
    exact hpw.imp (fun {a b} h => by omega)
  · intro k hk
    obtain ⟨p, hp, h1, h2⟩ := hcover k (by omega) hk
    obtain ⟨i, hi⟩ := List.mem_iff_getElem?.mp hp
    refine ⟨i, ⟨p.1, p.2, by simp [hi], by simp [hi], h1, h2⟩, ?_⟩
    rintro j ⟨o, n, ho, hn, hj1, hj2⟩
    have hj := hidx j o n ho hn
    obtain ⟨hjlt, hjeq⟩ := List.getElem?_eq_some.mp hj
    obtain ⟨hilt, hieq⟩ := List.getElem?_eq_some.mp hi
    have hpw' := List.pairwise_iff_getElem.mp hpw
    rcases Nat.lt_trichotomy j i with hlt | heq | hgt
    · have := hpw' j i hjlt hilt hlt
      rw [hjeq, hieq] at this
      simp only at this
      omega
    · exact heq
    · have := hpw' i j hilt hjlt hgt
      rw [hjeq, hieq] at this
      simp only at this
      omega
  · simpa using runsFrom_sum r 0 0

theorem chop_map_length (ns : List Nat) (t : List rune) (h : ns.sum ≤ t.length) :
    (chop ns t).map List.length = ns := by
  induction ns generalizing t with
  | nil => rfl
  | cons n ns ih =>
    simp only [List.sum_cons] at h
    simp only [chop, List.map_cons, List.length_take]
    rw [ih (t.drop n) (by simp only [List.length_drop]; omega)]
    congr 1
    omega

theorem chop_flatten (ns : List Nat) (t : List rune) :
    (chop ns t).flatten = t.take ns.sum := by
  induction ns generalizing t with
  | nil => simp [chop]
  | cons n ns ih =>
    simp only [chop, List.flatten_cons, List.sum_cons, ih, List.take_add]

theorem chop_length (ns : List Nat) (t : List rune) : (chop ns t).length = ns.length := by
  induction ns generalizing t with
  | nil => rfl
  | cons n ns ih => simp [chop, ih]

theorem appendToLast_snoc (closed : List (List rune)) (w : List rune) (x : rune) :
    appendToLast (closed ++ [w]) x = some (closed ++ [w ++ [x]]) := by
  simp [appendToLast]

theorem SplitGuess_loop_ok (inRune : List rune) (s : List Bool) (closed : List (List rune))
    (w : List rune) (gi i c : Nat) (hw : w.length = c)
    (hlen : gi + s.count true ≤ inRune.length) :
    Row.SplitGuess.loop inRune s (closed ++ (if c > 0 then [w] else [])) gi (decide (c > 0))
      = some (some (closed ++ chop ((runsFrom i c s).map Prod.snd) (w ++ inRune.drop gi))) := by
  induction s generalizing closed w gi i c with
  | nil =>
    by_cases hc : c > 0
    · simp [Row.SplitGuess.loop, runsFrom, hc, chop, List.take_left' hw]
    · simp [Row.SplitGuess.loop, runsFrom, hc, chop]
  | cons v s ih =>
    cases v with
    | true =>
      simp only [List.count_cons_self] at hlen
      have hgi : gi < inRune.length := by omega
      have hge : ¬ gi ≥ inRune.length := by omega
      have hdrop : inRune.drop gi = inRune[gi] :: inRune.drop (gi + 1) :=
        List.drop_eq_getElem_cons hgi
      simp only [Row.SplitGuess.loop, if_true, hge, if_false, List.getElem?_eq_getElem hgi,
        runsFrom]
      by_cases hc : c > 0
      · have h := ih closed (w ++ [inRune[gi]]) (gi + 1) (i + 1) (c + 1) (by simp [hw])
          (by omega)
        simp only [gt_iff_lt, Nat.zero_lt_succ, if_true, decide_True, List.append_assoc,
          List.singleton_append] at h
        simp only [hc, decide_True, Bool.not_true, if_true, appendToLast_snoc, hdrop]
        simpa using h
      · have hc0 : c = 0 := by omega
        subst hc0
        have hw0 : w = [] := List.eq_nil_of_length_eq_zero hw
        subst hw0
        have h := ih closed [inRune[gi]] (gi + 1) (i + 1) 1 rfl (by omega)
        simp only [gt_iff_lt, Nat.zero_lt_succ, if_true, decide_True,
          List.singleton_append] at h
        simp only [hdrop]
        simpa using h
    | false =>
      have hcount : (false :: s).count true = s.count true := by simp
      rw [hcount] at hlen
      simp only [Row.SplitGuess.loop, runsFrom, List.map_append]
      by_cases hc : c > 0
      · have h := ih (closed ++ [w]) [] gi (i + 1) 0 rfl hlen
        simp only [gt_iff_lt, Nat.lt_irrefl, if_false, decide_False, List.append_nil,
          List.nil_append] at h
        simp only [hc, if_true, Bool.false_eq_true, if_false]
        rw [h]
        simp [chop, List.take_left' hw, List.drop_left' hw]
      · have hc0 : c = 0 := by omega
        subst hc0
        have hw0 : w = [] := List.eq_nil_of_length_eq_zero hw
        subst hw0
        have h := ih closed [] gi (i + 1) 0 rfl hlen
        simp only [gt_iff_lt, Nat.lt_irrefl, if_false, decide_False, List.append_nil,
          List.nil_append] at h
        simp only [Bool.false_eq_true, if_false]
        simpa using h

theorem SplitGuess_loop_fail (inRune : List rune) (s : List Bool) (closed : List (List rune))
    (w : List rune) (gi c : Nat) (hgi : gi ≤ inRune.length)
    (hlen : inRune.length < gi + s.count true) :
    Row.SplitGuess.loop inRune s (closed ++ (if c > 0 then [w] else [])) gi (decide (c > 0))
      = some none := by
  induction s generalizing closed w gi c with
  | nil => simp at hlen; omega
  | cons v s ih =>
    cases v with
    | true =>
      simp only [List.count_cons_self] at hlen
      by_cases hge : gi ≥ inRune.length
      · simp [Row.SplitGuess.loop, hge]
      · have hlt : gi < inRune.length := by omega
        simp only [Row.SplitGuess.loop, if_true, hge, if_false, List.getElem?_eq_getElem hlt]
        by_cases hc : c > 0
        · have h := ih closed (w ++ [inRune[gi]]) (gi + 1) (c + 1) (by omega) (by omega)
          simp only [gt_iff_lt, Nat.zero_lt_succ, if_true, decide_True] at h
          simp only [hc, decide_True, Bool.not_true, if_true, appendToLast_snoc]
          simpa using h
        · have hc0 : c = 0 := by omega
          subst hc0
          have h := ih closed [inRune[gi]] (gi + 1) 1 (by omega) (by omega)
          simp only [gt_iff_lt, Nat.zero_lt_succ, if_true, decide_True] at h
          simpa using h
    | false =>
      have hcount : (false :: s).count true = s.count true := by simp
      rw [hcount] at hlen
      simp only [Row.SplitGuess.loop, Bool.false_eq_true, if_false]
      by_cases hc : c > 0
      · have h := ih (closed ++ [w]) [] gi 0 hgi hlen
        simp only [gt_iff_lt, Nat.lt_irrefl, if_false, decide_False, List.append_nil] at h
        simpa [hc] using h
      · have hc0 : c = 0 := by omega
        subst hc0
        have h := ih closed [] gi 0 hgi hlen
        simpa using h

theorem SplitGuess_ok (r : Row) (text : String) (h : r.count true ≤ text.length) :
    Row.SplitGuess r text
      = some ((chop (Row.ToTargetWordLengths r) text.toList).map String.mk, true) := by
  have hl := SplitGuess_loop_ok text.toList r [] [] 0 0 0 rfl
    (by have hl : text.length = text.toList.length := rfl
        omega)
  simp only [gt_iff_lt, Nat.lt_irrefl, if_false, decide_False, List.append_nil,
    List.nil_append, List.drop_zero] at hl
  simp only [Row.SplitGuess, hl, ToTargetWordLengths_eq]

theorem SplitGuess_fail (r : Row) (text : String) (h : text.length < r.count true) :
    Row.SplitGuess r text = some ([], false) := by
  have hl := SplitGuess_loop_fail text.toList r [] [] 0 0 (Nat.zero_le _)
    (by have hl : text.length = text.toList.length := rfl
        omega)
  simp only [gt_iff_lt, Nat.lt_irrefl, if_false, decide_False, List.append_nil] at hl
  simp only [Row.SplitGuess, hl]

/-- The rows of the default shape `[T,T,T,T,F,T,T]` and `[F,T,T,T,T,T,F]` evaluated: lengths
`[4,2]` at offsets `[0,5]`, and length `[5]` at offset `[1]`. -/
theorem lengths_offsets_default_rows :
    Row.ToTargetWordLengths [true, true, true, true, false, true, true] = [4, 2] ∧
    Row.toStartOffsets [true, true, true, true, false, true, true] = [0, 5] ∧
    Row.ToTargetWordLengths [false, true, true, true, true, true, false] = [5] ∧
    Row.toStartOffsets [false, true, true, true, true, true, false] = [1] := by
  decide

/-- C5: for every row and every text with at least as many characters as the row has true
slots (`k`), `SplitGuess` succeeds; its sub-words are as many as the entries of
`ToTargetWordLengths(row)`, the character count of the `i`-th sub-word is the `i`-th entry,
and the sub-words concatenated in order are the first `k` characters of the text. -/
theorem SplitGuess_shape (r : Row) (text : String) (h : r.count true ≤ text.length) :
    ∃ segs, Row.SplitGuess r text = some (segs, true) ∧
      segs.length = (Row.ToTargetWordLengths r).length ∧
      segs.map String.length = Row.ToTargetWordLengths r ∧
      String.join segs = String.mk (text.toList.take (r.count true)) := by
  have hsum : (Row.ToTargetWordLengths r).sum = r.count true := by
    rw [ToTargetWordLengths_eq]
    simpa using runsFrom_sum r 0 0
  have hlen : (Row.ToTargetWordLengths r).sum ≤ text.toList.length := by
    have hl : text.length = text.toList.length := rfl
    omega
  refine ⟨_, SplitGuess_ok r text h, ?_, ?_, ?_⟩
  · simp [chop_length]
  · rw [List.map_map]
    have hf : String.length ∘ String.mk = List.length := by
      funext w
      rfl
    rw [hf, chop_map_length _ _ hlen]
  · apply String.ext
    rw [String.data_join, List.map_map]
    have hf : String.data ∘ String.mk = id := by
      funext w
      rfl
    rw [hf, List.map_id, chop_flatten, hsum]

/-- Witness of C5: the row `[T,T,T,F,T,T,T]` splits `catdog` into `cat` and `dog`. -/
theorem SplitGuess_shape_witness :
    ([true, true, true, false, true, true, true].count true ≤ "catdog".length ∧
      Row.SplitGuess [true, true, true, false, true, true, true] "catdog"
        = some (["cat", "dog"], true)) ∧
    ∃ segs, Row.SplitGuess [true, true, true, false, true, true, true] "catdog"
        = some (segs, true) ∧
      segs.length = (Row.ToTargetWordLengths [true, true, true, false, true, true, true]).length ∧
      segs.map String.length
        = Row.ToTargetWordLengths [true, true, true, false, true, true, true] ∧
      String.join segs = String.mk ("catdog".toList.take
        ([true, true, true, false, true, true, true].count true)) :=
  ⟨⟨by decide, by decide⟩,
    SplitGuess_shape [true, true, true, false, true, true, true] "catdog" (by decide)⟩

/-- C6: for every row and every text, `SplitGuess` returns `ok = false` exactly when the
text has fewer characters than the row has true slots, and `ok = true` exactly otherwise
(it never panics); so a row with 7 true slots rejects every 6-character text, and an
all-false row accepts every text. -/
theorem SplitGuess_ok_iff (r : Row) (text : String) :
    ((∃ segs, Row.SplitGuess r text = some (segs, false)) ↔ text.length < r.count true) ∧
    ((∃ segs, Row.SplitGuess r text = some (segs, true)) ↔ r.count true ≤ text.length) ∧
    (r.count true = 7 → text.length = 6 → ∃ segs, Row.SplitGuess r text = some (segs, false)) ∧
    ((∀ b ∈ r, b = false) → ∃ segs, Row.SplitGuess r text = some (segs, true)) := by
  have hiff : ((∃ segs, Row.SplitGuess r text = some (segs, false)) ↔ text.length < r.count true) ∧
      ((∃ segs, Row.SplitGuess r text = some (segs, true)) ↔ r.count true ≤ text.length) := by
    by_cases h : r.count true ≤ text.length
    · have hok := SplitGuess_ok r text h
      refine ⟨⟨?_, fun h' => absurd h' (by omega)⟩, ⟨fun _ => h, fun _ => ⟨_, hok⟩⟩⟩
      rintro ⟨segs, hs⟩
      rw [hok] at hs
      simp at hs
    · have hlt : text.length < r.count true := by omega
      have hf := SplitGuess_fail r text hlt
      refine ⟨⟨fun _ => hlt, fun _ => ⟨_, hf⟩⟩, ⟨?_, fun h' => absurd h' h⟩⟩
      rintro ⟨segs, hs⟩
      rw [hf] at hs
      simp at hs
  refine ⟨hiff.1, hiff.2, ?_, ?_⟩
  · intro h7 h6
    exact hiff.1.mpr (by omega)
  · intro hall
    apply hiff.2.mpr
    have : r.count true = 0 := by
      apply List.count_eq_zero.mpr
      intro hmem
      exact absurd (hall true hmem) (by decide)
    omega

theorem rangeRunes_of_isAZ (w : List rune) (i : Nat) (h : ∀ r ∈ w, isAZ r) :
    rangeRunes i w = w.enumFrom i := by
  induction w generalizing i with
  | nil => rfl
  | cons r w ih =>
    have hr : isAZ r := h r (List.mem_cons_self _ _)
    simp only [rangeRunes, List.enumFrom_cons, runeWidth_of_isAZ hr]
    rw [ih (i + 1) (fun x hx => h x (List.mem_cons_of_mem _ hx))]

theorem foldBody_append (body : Nat → rune → ScoreState → Option ScoreState)
    (a b : List (Nat × rune)) (s : ScoreState) :
    foldBody body (a ++ b) s = (foldBody body a s).bind (foldBody body b) := by
  induction a generalizing s with
  | nil => rfl
  | cons p a ih =>
    obtain ⟨idx, l⟩ := p
    simp only [List.cons_append, foldBody]
    cases body idx l s with
    | none => rfl
    | some s' => exact ih s'

theorem inner_eq_foldBody (O : List Nat) (body : Nat → rune → ScoreState → Option ScoreState)
    (i o : Nat) (hO : O[i]? = some o) (w : List rune) (j : Nat) (s : ScoreState) :
    forEachLetter.inner O body i (w.enumFrom j) s = foldBody body (w.enumFrom (j + o)) s := by
  induction w generalizing j s with
  | nil => rfl
  | cons x w ih =>
    simp only [List.enumFrom_cons, forEachLetter.inner, hO, foldBody]
    cases body (j + o) x s with
    | none => rfl
    | some s' =>
      simp only
      rw [ih (j + 1) s']
      congr 2
      omega

theorem forEachLetter_eq_foldBody (body : Nat → rune → ScoreState → Option ScoreState)
    (runs : List (Nat × Nat)) (pre : List Nat) (t : List rune) (ht : ∀ r ∈ t, isAZ r)
    (s : ScoreState) :
    forEachLetter (pre ++ runs.map Prod.fst) body pre.length
        ((chop (runs.map Prod.snd) t).map String.mk) s
      = foldBody body (flatRuns runs t) s := by
  induction runs generalizing pre t s with
  | nil => rfl
  | cons p runs ih =>
    obtain ⟨o, n⟩ := p
    have hO : (pre ++ (o :: runs.map Prod.fst))[pre.length]? = some o := by
      rw [List.getElem?_append_right (Nat.le_refl _)]
      simp
    have htake : ∀ r ∈ t.take n, isAZ r := fun r hr => ht r (List.mem_of_mem_take hr)
    have hdrop : ∀ r ∈ t.drop n, isAZ r := fun r hr => ht r (List.mem_of_mem_drop hr)
    simp only [List.map_cons, chop, forEachLetter, flatRuns, rangeString, String.toList,
      rangeRunes_of_isAZ _ 0 htake, inner_eq_foldBody _ body _ o hO, Nat.zero_add,
      foldBody_append]
    cases foldBody body ((t.take n).enumFrom o) s with
    | none => rfl
    | some s' =>
      simp only [Option.bind]
      have h := ih (pre ++ [o]) (t.drop n) hdrop s'
      simp only [List.length_append, List.length_singleton, List.append_assoc,
        List.singleton_append] at h
      exact h

theorem flatRuns_runsFrom (s : List Bool) (w t : List rune) (i c : Nat) (hw : w.length = c)
    (hci : c ≤ i) (hlen : s.count true ≤ t.length) :
    flatRuns (runsFrom i c s) (w ++ t) = w.enumFrom (i - c) ++ covered i s t := by
  induction s generalizing w t i c with
  | nil =>
    by_cases hc : c > 0
    · simp [runsFrom, hc, flatRuns, covered, List.take_left' hw]
    · have hc0 : c = 0 := by omega
      subst hc0
      have hw0 : w = [] := List.eq_nil_of_length_eq_zero hw
      subst hw0
      simp [runsFrom, flatRuns, covered]
  | cons v s ih =>
    cases v with
    | true =>
      simp only [List.count_cons_self] at hlen
      cases t with
      | nil => simp at hlen
      | cons x t =>
        have h := ih (w ++ [x]) t (i + 1) (c + 1) (by simp [hw]) (by omega)
          (by simp at hlen; omega)
        simp only [List.append_assoc, List.singleton_append, Nat.add_sub_add_right] at h
        simp only [runsFrom, covered, h, List.enumFrom_append, List.enumFrom_singleton, hw]
        have : i - c + c = i := Nat.sub_add_cancel hci
        simp [this]
    | false =>
      have hcount : (false :: s).count true = s.count true := by simp
      rw [hcount] at hlen
      have h := ih [] t (i + 1) 0 rfl (by omega) hlen
      simp only [List.nil_append, Nat.sub_zero, List.enumFrom_nil] at h
      by_cases hc : c > 0
      · simp [runsFrom, hc, flatRuns, covered, List.take_left' hw, List.drop_left' hw, h]
      · have hc0 : c = 0 := by omega
        subst hc0
        have hw0 : w = [] := List.eq_nil_of_length_eq_zero hw
        subst hw0
        simp [runsFrom, flatRuns, covered, h]

theorem covered_eq_coveredSlots (s : List Bool) (t trs : List rune) (i : Nat)
    (hlen : trs.length = s.length) :
    covered i s t = coveredSlots i ((guessAt s t).zip trs) := by
  induction s generalizing t trs i with
  | nil => simp [covered, guessAt, coveredSlots]
  | cons v s ih =>
    cases trs with
    | nil => simp at hlen
    | cons y trs =>
      have hl : trs.length = s.length := by simpa using hlen
      cases v with
      | false =>
        simp only [covered, guessAt, List.zip_cons_cons, coveredSlots, ih t trs (i + 1) hl]
        rfl
      | true =>
        cases t with
        | nil =>
          simp only [covered, guessAt, List.zip_cons_cons, coveredSlots, ih [] trs (i + 1) hl]
          rfl
        | cons x t =>
          simp only [covered, guessAt, List.zip_cons_cons, coveredSlots, ih t trs (i + 1) hl]
          rfl

theorem set_append_cons (pre : List LetterAnswer) (la v : LetterAnswer)
    (las : List LetterAnswer) :
    (pre ++ la :: las).set pre.length v = pre ++ v :: las := by
  induction pre with
  | nil => rfl
  | cons a pre ih => simp [ih]

theorem getElem?_append_cons_length {α : Type} (pre : List α) (a : α) (l : List α) :
    (pre ++ a :: l)[pre.length]? = some a := by
  rw [List.getElem?_append_right (Nat.le_refl _)]
  simp

theorem foldBody_local (trs : List rune)
    (body : Nat → rune → ScoreState → Option ScoreState)
    (f : rune → rune → LetterAnswer → (rune → Int) → LetterAnswer × (rune → Int))
    (hloc : ∀ idx l t la las fr, las[idx]? = some la → trs[idx]? = some t →
      body idx l ⟨las, fr⟩ = some ⟨las.set idx (f l t la fr).1, (f l t la fr).2⟩)
    (sl : List (Option rune × rune)) (pre : List LetterAnswer) (trsPre : List rune)
    (las : List LetterAnswer) (fr : rune → Int)
    (htrs : trs = trsPre ++ sl.map Prod.snd) (hpre : trsPre.length = pre.length)
    (hlas : las.length = sl.length) :
    foldBody body (coveredSlots pre.length sl) ⟨pre ++ las, fr⟩
      = some ⟨pre ++ (posFold f sl las fr).1, (posFold f sl las fr).2⟩ := by
  induction sl generalizing pre trsPre las fr with
  | nil =>
    have : las = [] := List.eq_nil_of_length_eq_zero hlas
    subst this
    simp [coveredSlots, foldBody, posFold]
  | cons p sl ih =>
    obtain ⟨gx, t⟩ := p
    cases las with
    | nil => simp at hlas
    | cons la las =>
      have hl : las.length = sl.length := by simpa using hlas
      have htrs' : trs = (trsPre ++ [t]) ++ sl.map Prod.snd := by
        rw [htrs]
        simp
      have hpre' : ∀ v : LetterAnswer, (trsPre ++ [t]).length = (pre ++ [v]).length := by
        intro v
        simp [hpre]
      cases gx with
      | none =>
        have h := ih (pre ++ [la]) (trsPre ++ [t]) las fr htrs' (hpre' la) hl
        simp only [List.length_append, List.length_singleton, List.append_assoc,
          List.singleton_append] at h
        simp only [coveredSlots, posFold]
        exact h
      | some x =>
        have hla : (pre ++ la :: las)[pre.length]? = some la :=
          getElem?_append_cons_length pre la las
        have ht : trs[pre.length]? = some t := by
          rw [htrs, ← hpre]
          simp only [List.map_cons]
          exact getElem?_append_cons_length trsPre t _
        have h := ih (pre ++ [(f x t la fr).1]) (trsPre ++ [t]) las (f x t la fr).2
          htrs' (hpre' _) hl
        simp only [List.length_append, List.length_singleton, List.append_assoc,
          List.singleton_append] at h
        simp only [coveredSlots, posFold, foldBody, hloc _ x t la _ fr hla ht,
          set_append_cons]
        exact h

theorem set_self_of_getElem? (las : List LetterAnswer) (idx : Nat) (la : LetterAnswer)
    (hla : las[idx]? = some la) : las.set idx la = las := by
  apply List.ext_getElem?
  intro n
  by_cases hn : idx = n
  · subst hn
    rw [List.getElem?_set_self', hla]
    rfl
  · rw [List.getElem?_set_ne hn]

theorem populate_local (idx : Nat) (l t : rune) (la : LetterAnswer) (las : List LetterAnswer)
    (fr : rune → Int) (hla : las[idx]? = some la) :
    CalcAnswer.populate idx l ⟨las, fr⟩
      = some ⟨las.set idx (stepPopulate l t la fr).1, (stepPopulate l t la fr).2⟩ := by
  simp [CalcAnswer.populate, hla, stepPopulate]

theorem markCorrect_local (trs : List rune) (idx : Nat) (l t : rune) (la : LetterAnswer)
    (las : List LetterAnswer) (fr : rune → Int) (hla : las[idx]? = some la)
    (ht : trs[idx]? = some t) :
    CalcAnswer.markCorrect trs idx l ⟨las, fr⟩
      = some ⟨las.set idx (stepCorrect l t la fr).1, (stepCorrect l t la fr).2⟩ := by
  by_cases h : l = t
  · simp [CalcAnswer.markCorrect, hla, ht, stepCorrect, h]
  · simp only [CalcAnswer.markCorrect, ht, stepCorrect, ne_eq, h, not_false_eq_true, if_true]
    rw [set_self_of_getElem? las idx la hla]

theorem markMisplaced_local (idx : Nat) (l t : rune) (la : LetterAnswer)
    (las : List LetterAnswer) (fr : rune → Int) (hla : las[idx]? = some la) :
    CalcAnswer.markMisplaced idx l ⟨las, fr⟩
      = some ⟨las.set idx (stepMisplaced l t la fr).1, (stepMisplaced l t la fr).2⟩ := by
  have hset : las.set idx la = las := set_self_of_getElem? las idx la hla
  by_cases h1 : fr l ≤ 0
  · simp [CalcAnswer.markMisplaced, stepMisplaced, h1, hset]
  · by_cases h2 : la.Status = LetterStatus.Correct
    · simp [CalcAnswer.markMisplaced, stepMisplaced, h1, h2, hla, hset]
    · simp [CalcAnswer.markMisplaced, stepMisplaced, h1, h2, hla]

theorem guessAt_length (s : List Bool) (t : List rune) : (guessAt s t).length = s.length := by
  induction s generalizing t with
  | nil => rfl
  | cons v s ih =>
    cases v with
    | false => simp [guessAt, ih]
    | true =>
      cases t with
      | nil => simp [guessAt, ih]
      | cons x t => simp [guessAt, ih]

theorem posFold_length
    (f : rune → rune → LetterAnswer → (rune → Int) → LetterAnswer × (rune → Int))
    (sl : List (Option rune × rune)) (las : List LetterAnswer) (fr : rune → Int)
    (h : las.length = sl.length) : (posFold f sl las fr).1.length = sl.length := by
  induction sl generalizing las fr with
  | nil => simpa [posFold] using h
  | cons p sl ih =>
    obtain ⟨gx, t⟩ := p
    cases las with
    | nil => simp at h
    | cons la las =>
      have hl : las.length = sl.length := by simpa using h
      cases gx with
      | none => simp [posFold, ih las fr hl]
      | some x => simp [posFold, ih las _ hl]

theorem posFold_populate (sl : List (Option rune × rune)) (fr : rune → Int) :
    posFold stepPopulate sl (List.replicate sl.length ⟨"", LetterStatus.PositionNotUsed⟩) fr
      = (sl.map afterPopulate, fr) := by
  induction sl generalizing fr with
  | nil => rfl
  | cons p sl ih =>
    obtain ⟨gx, t⟩ := p
    cases gx with
    | none =>
      simp only [List.length_cons, List.replicate_succ, posFold, ih fr, List.map_cons,
        afterPopulate]
    | some x =>
      simp only [List.length_cons, List.replicate_succ, posFold, stepPopulate, ih fr,
        List.map_cons, afterPopulate]

theorem posFold_correct (sl : List (Option rune × rune)) (fr : rune → Int) :
    posFold stepCorrect sl (sl.map afterPopulate) fr
      = (sl.map afterCorrect, fun c => fr c - (sl.countP (exactAt c) : Int)) := by
  induction sl generalizing fr with
  | nil => simp [posFold]
  | cons p sl ih =>
    obtain ⟨gx, t⟩ := p
    cases gx with
    | none =>
      have hex : ∀ c, exactAt c (none, t) = false := fun c => by simp [exactAt]
      simp only [List.map_cons, afterPopulate, posFold, ih fr, afterCorrect, List.countP_cons,
        hex, Bool.false_eq_true, if_false, Nat.add_zero]
    | some x =>
      by_cases hxt : x = t
      · subst hxt
        simp only [List.map_cons, afterPopulate, posFold, stepCorrect, ne_eq, not_true_eq_false,
          if_false, ih, afterCorrect, if_true]
        congr 1
        funext c
        by_cases hc : c = x
        · subst hc
          have : exactAt c (some c, c) = true := by simp [exactAt]
          simp only [Function.update_same, List.countP_cons, this, if_true]
          push_cast
          ring
        · have : exactAt c (some x, x) = false := by
            simp only [exactAt, decide_eq_false_iff_not, not_and]
            intro h1 _
            exact hc (Option.some.inj h1).symm
          simp [Function.update_noteq hc, List.countP_cons, this]
      · simp only [List.map_cons, afterPopulate, posFold, stepCorrect, ne_eq, hxt,
          not_false_eq_true, if_true, ih, afterCorrect, if_false]
        congr 1
        funext c
        have : exactAt c (some x, t) = false := by
          simp only [exactAt, decide_eq_false_iff_not, not_and]
          intro h1 h2
          apply hxt
          rw [Option.some.inj h1, h2]
        simp [List.countP_cons, this]

theorem posFold_misplaced (sl : List (Option rune × rune)) (fr : rune → Int) :
    (posFold stepMisplaced sl (sl.map afterCorrect) fr).1 = scoreSlots fr sl := by
  induction sl generalizing fr with
  | nil => rfl
  | cons p sl ih =>
    obtain ⟨gx, t⟩ := p
    cases gx with
    | none => simp [posFold, afterCorrect, scoreSlots, ih fr]
    | some x =>
      by_cases hxt : x = t
      · subst hxt
        by_cases hfr : fr x ≤ 0
        · simp [posFold, afterCorrect, scoreSlots, stepMisplaced, hfr, ih fr]
        · simp [posFold, afterCorrect, scoreSlots, stepMisplaced, hfr, ih fr]
      · by_cases hfr : fr x ≤ 0
        · simp [posFold, afterCorrect, scoreSlots, stepMisplaced, hfr, hxt, ih fr]
        · simp [posFold, afterCorrect, scoreSlots, stepMisplaced, hfr, hxt, ih]

theorem targetFreq_fold (l : List rune) (f : rune → Int) (c : rune) :
    (l.foldl (fun out x => Function.update out x (out x + 1)) f) c = f c + (l.count c : Int) := by
  induction l generalizing f with
  | nil => simp
  | cons x l ih =>
    simp only [List.foldl_cons, ih]
    by_cases hc : c = x
    · subst hc
      simp only [Function.update_same, List.count_cons_self]
      push_cast
      ring
    · have hne : ¬ (x == c) = true := by
        simp only [beq_iff_eq]
        exact fun h => hc h.symm
      simp [Function.update_noteq hc, List.count_cons, hne]

theorem targetFreq_eq_count (g : Game) (c : rune) :
    g.targetFreq c = (g.TargetWord.toList.count c : Int) := by
  simp [Game.targetFreq, targetFreq_fold]

theorem SplitGuess_true_inv (r : Row) (text : String) (segs : List String)
    (hs : Row.SplitGuess r text = some (segs, true)) :
    r.count true ≤ text.toList.length ∧
      segs = (chop ((runsFrom 0 0 r).map Prod.snd) text.toList).map String.mk := by
  have hl : text.length = text.toList.length := rfl
  by_cases h : r.count true ≤ text.length
  · refine ⟨by omega, ?_⟩
    rw [SplitGuess_ok r text h, ToTargetWordLengths_eq] at hs
    simp only [Option.some.injEq, Prod.mk.injEq, and_true] at hs
    exact hs.symm
  · rw [SplitGuess_fail r text (by omega)] at hs
    simp at hs

theorem pass_eq_posFold (g : Game) (r : Row) (text : String) (segs : List String)
    (haz : lowerAZ text) (hW : r.length = g.TargetWord.length)
    (hs : Row.SplitGuess r text = some (segs, true))
    (body : Nat → rune → ScoreState → Option ScoreState)
    (f : rune → rune → LetterAnswer → (rune → Int) → LetterAnswer × (rune → Int))
    (hloc : ∀ idx l t la las fr, las[idx]? = some la → g.TargetWord.toList[idx]? = some t →
      body idx l ⟨las, fr⟩ = some ⟨las.set idx (f l t la fr).1, (f l t la fr).2⟩)
    (las : List LetterAnswer) (fr : rune → Int) (hlas : las.length = (slotsOf g r text).length) :
    forEachLetter (Row.toStartOffsets r) body 0 segs ⟨las, fr⟩
      = some ⟨(posFold f (slotsOf g r text) las fr).1, (posFold f (slotsOf g r text) las fr).2⟩ := by
  obtain ⟨hcount, hsegs⟩ := SplitGuess_true_inv r text segs hs
  have hlen : g.TargetWord.toList.length = r.length := by
    have : g.TargetWord.length = g.TargetWord.toList.length := rfl
    omega
  have h1 := forEachLetter_eq_foldBody body (runsFrom 0 0 r) [] text.toList haz ⟨las, fr⟩
  simp only [List.nil_append, List.length_nil] at h1
  rw [toStartOffsets_eq, hsegs, h1]
  have h2 := flatRuns_runsFrom r [] text.toList 0 0 rfl (le_refl 0) hcount
  simp only [List.nil_append, Nat.sub_zero, List.enumFrom_nil] at h2
  rw [h2, covered_eq_coveredSlots r text.toList g.TargetWord.toList 0 hlen]
  have hsnd : g.TargetWord.toList = [] ++ (slotsOf g r text).map Prod.snd := by
    simp only [slotsOf, List.nil_append]
    rw [List.map_snd_zip]
    rw [guessAt_length]
    omega
  have h3 := foldBody_local g.TargetWord.toList body f hloc (slotsOf g r text) [] [] las fr
    hsnd rfl hlas
  simp only [List.nil_append, List.length_nil] at h3
  exact h3

theorem slotsOf_length (g : Game) (r : Row) (text : String)
    (hW : r.length = g.TargetWord.length) : (slotsOf g r text).length = r.length := by
  have : g.TargetWord.length = g.TargetWord.toList.length := rfl
  simp only [slotsOf, List.length_zip, guessAt_length]
  omega

/-- Under the preconditions of the scorer, `CalcAnswer` does not panic and returns the
answers `scoreSlots` tells slot by slot. -/
theorem CalcAnswer_eq_scoreSlots (g : Game) (r : Row) (text : String) (segs : List String)
    (haz : lowerAZ text) (hW : r.length = g.TargetWord.length)
    (hs : Row.SplitGuess r text = some (segs, true)) :
    g.CalcAnswer segs r
      = some (scoreSlots (freqAfterCorrect g (slotsOf g r text)) (slotsOf g r text)) := by
  have hsl := slotsOf_length g r text hW
  have hblank : g.TargetWord.toList.map (fun _ => (⟨"", LetterStatus.PositionNotUsed⟩ : LetterAnswer))
      = List.replicate (slotsOf g r text).length ⟨"", LetterStatus.PositionNotUsed⟩ := by
    have : g.TargetWord.length = g.TargetWord.toList.length := rfl
    rw [List.map_const', hsl]
    congr 1
    omega
  have p1 := pass_eq_posFold g r text segs haz hW hs CalcAnswer.populate stepPopulate
    (fun idx l t la las fr hla _ => populate_local idx l t la las fr hla)
    (List.replicate (slotsOf g r text).length ⟨"", LetterStatus.PositionNotUsed⟩) g.targetFreq
    (by simp)
  rw [posFold_populate] at p1
  have p2 := pass_eq_posFold g r text segs haz hW hs
    (CalcAnswer.markCorrect g.TargetWord.toList) stepCorrect
    (fun idx l t la las fr hla ht => markCorrect_local _ idx l t la las fr hla ht)
    ((slotsOf g r text).map afterPopulate) g.targetFreq (by simp)
  rw [posFold_correct] at p2
  have p3 := pass_eq_posFold g r text segs haz hW hs CalcAnswer.markMisplaced stepMisplaced
    (fun idx l t la las fr hla _ => markMisplaced_local idx l t la las fr hla)
    ((slotsOf g r text).map afterCorrect) (freqAfterCorrect g (slotsOf g r text)) (by simp)
  rw [posFold_misplaced] at p3
  have hfr : (fun c => g.targetFreq c - ((slotsOf g r text).countP (exactAt c) : Int))
      = freqAfterCorrect g (slotsOf g r text) := rfl
  simp only [hfr] at p2
  simp only [Game.CalcAnswer, hblank, p1, p2, p3]

theorem singleton_inj {x c : rune} : String.singleton x = String.singleton c ↔ x = c := by
  constructor
  · intro h
    have h' := congrArg String.data h
    simpa [String.singleton] using h'
  · intro h
    rw [h]

theorem singleton_ne_empty (x : rune) : String.singleton x ≠ "" := by
  intro h
  have h' := congrArg String.data h
  simp [String.singleton] at h'

theorem guessAt_false (s : List Bool) (t : List rune) (k : Nat) (h : s[k]? = some false) :
    (guessAt s t)[k]? = some none := by
  induction s generalizing t k with
  | nil => simp at h
  | cons v s ih =>
    cases k with
    | zero =>
      simp only [List.getElem?_cons_zero, Option.some.injEq] at h
      subst h
      simp [guessAt]
    | succ k =>
      simp only [List.getElem?_cons_succ] at h
      cases v with
      | false => simp [guessAt, ih t k h]
      | true =>
        cases t with
        | nil => simp [guessAt, ih [] k h]
        | cons x t => simp [guessAt, ih t k h]

theorem guessAt_true (s : List Bool) (t : List rune) (k : Nat) (hlen : s.count true ≤ t.length)
    (h : s[k]? = some true) :
    ∃ x, t[(s.take k).count true]? = some x ∧ (guessAt s t)[k]? = some (some x) := by
  induction s generalizing t k with
  | nil => simp at h
  | cons v s ih =>
    cases v with
    | false =>
      have hcount : (false :: s).count true = s.count true := by simp
      rw [hcount] at hlen
      cases k with
      | zero => simp at h
      | succ k =>
        simp only [List.getElem?_cons_succ] at h
        obtain ⟨x, h1, h2⟩ := ih t k hlen h
        refine ⟨x, ?_, ?_⟩
        · simpa using h1
        · simpa [guessAt] using h2
    | true =>
      simp only [List.count_cons_self] at hlen
      cases t with
      | nil => simp at hlen
      | cons y t =>
        have hlen' : s.count true ≤ t.length := by simp at hlen; omega
        cases k with
        | zero => exact ⟨y, by simp, by simp [guessAt]⟩
        | succ k =>
          simp only [List.getElem?_cons_succ] at h
          obtain ⟨x, h1, h2⟩ := ih t k hlen' h
          refine ⟨x, ?_, ?_⟩
          · simpa using h1
          · simpa [guessAt] using h2

theorem scoreSlots_length (fr : rune → Int) (sl : List (Option rune × rune)) :
    (scoreSlots fr sl).length = sl.length := by
  induction sl generalizing fr with
  | nil => rfl
  | cons p sl ih =>
    obtain ⟨gx, t⟩ := p
    cases gx with
    | none => simp [scoreSlots, ih]
    | some x =>
      simp only [scoreSlots]
      split_ifs <;> simp [ih]

theorem scoreSlots_getElem (fr : rune → Int) (sl : List (Option rune × rune)) (k : Nat)
    (p : Option rune × rune) (hp : sl[k]? = some p) :
    ∃ la, (scoreSlots fr sl)[k]? = some la ∧
      (p.1 = none → la = ⟨"", LetterStatus.PositionNotUsed⟩) ∧
      (∀ x, p.1 = some x → la.Letter = String.singleton x ∧
        (la.Status = LetterStatus.Correct ↔ x = p.2) ∧
        (la.Status = LetterStatus.NotInWord ∨ la.Status = LetterStatus.WrongPosition ∨
          la.Status = LetterStatus.Correct)) := by
  induction sl generalizing fr k with
  | nil => simp at hp
  | cons q sl ih =>
    obtain ⟨gx, t⟩ := q
    cases k with
    | succ k =>
      simp only [List.getElem?_cons_succ] at hp
      cases gx with
      | none =>
        obtain ⟨la, h1, h2⟩ := ih fr k hp
        exact ⟨la, by simpa [scoreSlots] using h1, h2⟩
      | some x =>
        simp only [scoreSlots]
        split_ifs
        · obtain ⟨la, h1, h2⟩ := ih fr k hp
          exact ⟨la, by simpa using h1, h2⟩
        · obtain ⟨la, h1, h2⟩ := ih fr k hp
          exact ⟨la, by simpa using h1, h2⟩
        · obtain ⟨la, h1, h2⟩ := ih (Function.update fr x (fr x - 1)) k hp
          exact ⟨la, by simpa using h1, h2⟩
    | zero =>
      simp only [List.getElem?_cons_zero, Option.some.injEq] at hp
      subst hp
      cases gx with
      | none =>
        exact ⟨_, by simp only [scoreSlots]; exact List.getElem?_cons_zero, fun _ => rfl,
          fun x hx => by simp at hx⟩
      | some x =>
        simp only [scoreSlots]
        split_ifs with h1 h2
        · refine ⟨_, List.getElem?_cons_zero, fun h => by simp at h, fun y hy => ?_⟩
          simp only [Option.some.injEq] at hy
          subst hy
          simp [h1]
        · refine ⟨_, List.getElem?_cons_zero, fun h => by simp at h, fun y hy => ?_⟩
          simp only [Option.some.injEq] at hy
          subst hy
          simp [h1]
        · refine ⟨_, List.getElem?_cons_zero, fun h => by simp at h, fun y hy => ?_⟩
          simp only [Option.some.injEq] at hy
          subst hy
          simp [h1]

theorem slotsOf_false (g : Game) (r : Row) (text : String) (k : Nat)
    (hW : r.length = g.TargetWord.length) (h : r[k]? = some false) :
    ∃ t, g.TargetWord.toList[k]? = some t ∧ (slotsOf g r text)[k]? = some (none, t) := by
  have hl : g.TargetWord.length = g.TargetWord.toList.length := rfl
  obtain ⟨hk, _⟩ := List.getElem?_eq_some.mp h
  have hk' : k < g.TargetWord.toList.length := by omega
  refine ⟨g.TargetWord.toList[k], List.getElem?_eq_getElem hk', ?_⟩
  rw [slotsOf, List.getElem?_zip_eq_some]
  exact ⟨guessAt_false r text.toList k h, List.getElem?_eq_getElem hk'⟩

theorem slotsOf_true (g : Game) (r : Row) (text : String) (k : Nat)
    (hW : r.length = g.TargetWord.length) (hlen : r.count true ≤ text.toList.length)
    (h : r[k]? = some true) :
    ∃ x t, text.toList[(r.take k).count true]? = some x ∧ g.TargetWord.toList[k]? = some t ∧
      (slotsOf g r text)[k]? = some (some x, t) := by
  have hl : g.TargetWord.length = g.TargetWord.toList.length := rfl
  obtain ⟨hk, _⟩ := List.getElem?_eq_some.mp h
  have hk' : k < g.TargetWord.toList.length := by omega
  obtain ⟨x, h1, h2⟩ := guessAt_true r text.toList k hlen h
  refine ⟨x, g.TargetWord.toList[k], h1, List.getElem?_eq_getElem hk', ?_⟩
  rw [slotsOf, List.getElem?_zip_eq_some]
  exact ⟨h2, List.getElem?_eq_getElem hk'⟩

theorem row_getElem_cases (r : Row) (k : Nat) (hk : k < r.length) :
    r[k]? = some true ∨ r[k]? = some false := by
  rw [List.getElem?_eq_getElem hk]
  cases r[k] <;> simp

/-- C8: for a target of `W` letters a-z, a row of width `W` and the sub-words `segs` of a
successful `SplitGuess(row, text)` on a text of letters a-z, `CalcAnswer(segs, row)`
returns, and the status of slot `k` is `Correct` if and only if `row[k]` is true and the
guessed character placed at slot `k` (the character of the text at the rank of `k` among
the true slots) equals the `k`-th character of the target. -/
theorem CalcAnswer_correct_iff (g : Game) (r : Row) (text : String) (segs : List String)
    (_htarget : lowerAZ g.TargetWord) (hW : r.length = g.TargetWord.length)
    (haz : lowerAZ text) (hs : Row.SplitGuess r text = some (segs, true)) :
    ∃ las, g.CalcAnswer segs r = some las ∧
      ∀ k : Nat, k < g.TargetWord.length →
        ((∃ la, las[k]? = some la ∧ la.Status = LetterStatus.Correct) ↔
          (r[k]? = some true ∧
            ∃ x, text.toList[(r.take k).count true]? = some x ∧
              g.TargetWord.toList[k]? = some x)) := by
  refine ⟨_, CalcAnswer_eq_scoreSlots g r text segs haz hW hs, ?_⟩
  obtain ⟨hcount, _⟩ := SplitGuess_true_inv r text segs hs
  intro k hk
  rcases row_getElem_cases r k (by omega) with hr | hr
  · obtain ⟨x, t, hx, ht, hsl⟩ := slotsOf_true g r text k hW hcount hr
    obtain ⟨la, hla, _, h2⟩ :=
      scoreSlots_getElem (freqAfterCorrect g (slotsOf g r text)) _ k _ hsl
    obtain ⟨_, hc, _⟩ := h2 x rfl
    constructor
    · rintro ⟨la', hla', hst⟩
      rw [hla] at hla'
      cases hla'
      have hxt : x = t := hc.mp hst
      exact ⟨hr, x, hx, by rw [ht, hxt]⟩
    · rintro ⟨_, y, hy, hty⟩
      rw [hx] at hy
      cases hy
      rw [ht] at hty
      cases hty
      exact ⟨la, hla, hc.mpr rfl⟩
  · obtain ⟨t, ht, hsl⟩ := slotsOf_false g r text k hW hr
    obtain ⟨la, hla, h1, _⟩ :=
      scoreSlots_getElem (freqAfterCorrect g (slotsOf g r text)) _ k _ hsl
    have hblank := h1 rfl
    constructor
    · rintro ⟨la', hla', hst⟩
      rw [hla] at hla'
      cases hla'
      rw [hblank] at hst
      cases hst
    · rintro ⟨hr', _⟩
      rw [hr] at hr'
      cases hr'

/-- Witness of C8: target `robot`, row `[T,T,F,T,T]`, text `both`. -/
theorem CalcAnswer_correct_iff_witness :
    (lowerAZ "robot" ∧ [true, true, false, true, true].length = "robot".length ∧
      lowerAZ "both" ∧
      Row.SplitGuess [true, true, false, true, true] "both" = some (["bo", "th"], true)) ∧
    ∃ las, Game.CalcAnswer ⟨"robot", [], 0⟩ ["bo", "th"] [true, true, false, true, true]
        = some las ∧
      ∀ k : Nat, k < "robot".length →
        ((∃ la, las[k]? = some la ∧ la.Status = LetterStatus.Correct) ↔
          ([true, true, false, true, true][k]? = some true ∧
            ∃ x, "both".toList[([true, true, false, true, true].take k).count true]? = some x ∧
              "robot".toList[k]? = some x)) :=
  ⟨⟨by decide, by decide, by decide, by decide⟩,
    CalcAnswer_correct_iff ⟨"robot", [], 0⟩ [true, true, false, true, true] "both"
      ["bo", "th"] (by decide) (by decide) (by decide) (by decide)⟩

/-- C10: for a target of `W` letters a-z, a row of width `W` and the sub-words `segs` of a
successful `SplitGuess(row, text)` on a text of letters a-z, `CalcAnswer(segs, row)`
returns exactly `W` entries; at a slot with `row[k]` false the entry has the empty letter
and status `PositionNotUsed`; at a slot with `row[k]` true the letter is the character of
the text consumed for the slot (the `r`-th, `r` the number of true slots before `k`) and the
status is one of `NotInWord`, `WrongPosition`, `Correct`. -/
theorem CalcAnswer_entries (g : Game) (r : Row) (text : String) (segs : List String)
    (_htarget : lowerAZ g.TargetWord) (hW : r.length = g.TargetWord.length)
    (haz : lowerAZ text) (hs : Row.SplitGuess r text = some (segs, true)) :
    ∃ las, g.CalcAnswer segs r = some las ∧ las.length = g.TargetWord.length ∧
      ∀ k : Nat, k < g.TargetWord.length →
        (r[k]? = some false → las[k]? = some ⟨"", LetterStatus.PositionNotUsed⟩) ∧
        (r[k]? = some true →
          ∃ x st, text.toList[(r.take k).count true]? = some x ∧
            las[k]? = some ⟨String.singleton x, st⟩ ∧
            (st = LetterStatus.NotInWord ∨ st = LetterStatus.WrongPosition ∨
              st = LetterStatus.Correct)) := by
  refine ⟨_, CalcAnswer_eq_scoreSlots g r text segs haz hW hs, ?_, ?_⟩
  · rw [scoreSlots_length, slotsOf_length g r text hW, hW]
  obtain ⟨hcount, _⟩ := SplitGuess_true_inv r text segs hs
  intro k _
  constructor
  · intro hr
    obtain ⟨t, _, hsl⟩ := slotsOf_false g r text k hW hr
    obtain ⟨la, hla, h1, _⟩ :=
      scoreSlots_getElem (freqAfterCorrect g (slotsOf g r text)) _ k _ hsl
    rw [hla, h1 rfl]
  · intro hr
    obtain ⟨x, t, hx, _, hsl⟩ := slotsOf_true g r text k hW hcount hr
    obtain ⟨la, hla, _, h2⟩ :=
      scoreSlots_getElem (freqAfterCorrect g (slotsOf g r text)) _ k _ hsl
    obtain ⟨hletter, _, hst⟩ := h2 x rfl
    refine ⟨x, la.Status, hx, ?_, hst⟩
    rw [hla, ← hletter]

/-- Witness of C10: target `robot`, row `[T,T,F,T,T]`, text `both`. -/
theorem CalcAnswer_entries_witness :
    (lowerAZ "robot" ∧ [true, true, false, true, true].length = "robot".length ∧
      lowerAZ "both" ∧
      Row.SplitGuess [true, true, false, true, true] "both" = some (["bo", "th"], true)) ∧
    ∃ las, Game.CalcAnswer ⟨"robot", [], 0⟩ ["bo", "th"] [true, true, false, true, true]
        = some las ∧ las.length = "robot".length ∧
      ∀ k : Nat, k < "robot".length →
        ([true, true, false, true, true][k]? = some false →
          las[k]? = some ⟨"", LetterStatus.PositionNotUsed⟩) ∧
        ([true, true, false, true, true][k]? = some true →
          ∃ x st, "both".toList[([true, true, false, true, true].take k).count true]? = some x ∧
            las[k]? = some ⟨String.singleton x, st⟩ ∧
            (st = LetterStatus.NotInWord ∨ st = LetterStatus.WrongPosition ∨
              st = LetterStatus.Correct)) :=
  ⟨⟨by decide, by decide, by decide, by decide⟩,
    CalcAnswer_entries ⟨"robot", [], 0⟩ [true, true, false, true, true] "both"
      ["bo", "th"] (by decide) (by decide) (by decide) (by decide)⟩

theorem guessesOpen_blank (c : rune) :
    guessesOpen c ⟨"", LetterStatus.PositionNotUsed⟩ = false := by
  simp only [guessesOpen, decide_eq_false_iff_not, not_and]
  intro h
  exact absurd h.symm (singleton_ne_empty c)

theorem guessesOpen_mk (c x : rune) (st : LetterStatus) :
    guessesOpen c ⟨String.singleton x, st⟩ = decide (x = c ∧ st ≠ LetterStatus.Correct) := by
  simp only [guessesOpen, singleton_inj]

theorem guessesCorrect_blank (c : rune) :
    guessesCorrect c ⟨"", LetterStatus.PositionNotUsed⟩ = false := by
  simp [guessesCorrect]

theorem guessesCorrect_mk (c x : rune) (st : LetterStatus) :
    guessesCorrect c ⟨String.singleton x, st⟩ = decide (x = c ∧ st = LetterStatus.Correct) := by
  simp only [guessesCorrect, singleton_inj]

theorem countP_take_lt {α : Type} (p : α → Bool) (l : List α) (k : Nat) (a : α)
    (h : l[k]? = some a) (hp : p a = true) : (l.take k).countP p < l.countP p := by
  obtain ⟨hk, ha⟩ := List.getElem?_eq_some.mp h
  have hsplit : l = l.take k ++ a :: l.drop (k + 1) := by
    conv_lhs => rw [← List.take_append_drop k l, List.drop_eq_getElem_cons hk, ha]
  conv_rhs => rw [hsplit]
  rw [List.countP_append, List.countP_cons, if_pos hp]
  omega

theorem scoreSlots_correct_count (fr : rune → Int) (sl : List (Option rune × rune)) (c : rune) :
    (scoreSlots fr sl).countP (guessesCorrect c) = sl.countP (exactAt c) := by
  induction sl generalizing fr with
  | nil => rfl
  | cons p sl ih =>
    obtain ⟨gx, t⟩ := p
    cases gx with
    | none =>
      have hex : exactAt c (none, t) = false := by simp [exactAt]
      simp only [scoreSlots, List.countP_cons, guessesCorrect_blank, hex, ih fr]
    | some x =>
      by_cases hxt : x = t
      · subst hxt
        have hex : exactAt c (some x, x) = decide (x = c) := by
          simp only [exactAt, Option.some.injEq, and_self]
        simp only [scoreSlots, if_true, List.countP_cons, guessesCorrect_mk, hex, ih fr,
          and_true]
      · have hex : exactAt c (some x, t) = false := by
          simp only [exactAt, decide_eq_false_iff_not, not_and, Option.some.injEq]
          intro h1 h2
          exact hxt (by rw [h1, h2])
        by_cases hfr : fr x ≤ 0
        · simp [scoreSlots, hxt, hfr, List.countP_cons, guessesCorrect_mk, hex, ih fr]
        · simp [scoreSlots, hxt, hfr, List.countP_cons, guessesCorrect_mk, hex, ih]

theorem scoreSlots_misplaced (fr : rune → Int) (sl : List (Option rune × rune)) (c : rune)
    (k : Nat) (la : LetterAnswer) (hla : (scoreSlots fr sl)[k]? = some la)
    (hopen : guessesOpen c la = true) :
    la.Status = if (((scoreSlots fr sl).take k).countP (guessesOpen c) : Int) < fr c
      then LetterStatus.WrongPosition else LetterStatus.NotInWord := by
  induction sl generalizing fr k with
  | nil => simp [scoreSlots] at hla
  | cons p sl ih =>
    obtain ⟨gx, t⟩ := p
    cases gx with
    | none =>
      simp only [scoreSlots] at hla ⊢
      cases k with
      | zero =>
        simp only [List.getElem?_cons_zero, Option.some.injEq] at hla
        subst hla
        rw [guessesOpen_blank] at hopen
        cases hopen
      | succ k =>
        simp only [List.getElem?_cons_succ] at hla
        rw [ih fr k hla]
        simp only [List.take_succ_cons, List.countP_cons, guessesOpen_blank,
          Bool.false_eq_true, if_false, Nat.add_zero]
    | some x =>
      by_cases hxt : x = t
      · simp only [scoreSlots, hxt, if_true] at hla ⊢
        cases k with
        | zero =>
          simp only [List.getElem?_cons_zero, Option.some.injEq] at hla
          subst hla
          simp [guessesOpen_mk] at hopen
        | succ k =>
          simp only [List.getElem?_cons_succ] at hla
          rw [ih fr k hla]
          simp [List.take_succ_cons, List.countP_cons, guessesOpen_mk]
      · by_cases hfr : fr x ≤ 0
        · simp only [scoreSlots, hxt, hfr, if_true, if_false] at hla ⊢
          cases k with
          | zero =>
            simp only [List.getElem?_cons_zero, Option.some.injEq] at hla
            subst hla
            simp only [guessesOpen_mk, decide_eq_true_eq] at hopen
            have hxc : x = c := hopen.1
            subst hxc
            have : ¬ ((0 : Int) < fr x) := by omega
            simp [this]
          | succ k =>
            simp only [List.getElem?_cons_succ] at hla
            rw [ih fr k hla]
            simp only [List.take_succ_cons, List.countP_cons, guessesOpen_mk]
            by_cases hxc : x = c
            · subst hxc
              have h1 : ¬ (((List.countP (guessesOpen x) (List.take k (scoreSlots fr sl)) : Nat)
                  : Int) < fr x) := by omega
              have h2 : ¬ (((List.countP (guessesOpen x) (List.take k (scoreSlots fr sl)) : Nat)
                  : Int) + 1 < fr x) := by omega
              simp [h1, h2]
            · simp [hxc]
        · simp only [scoreSlots, hxt, hfr, if_false] at hla ⊢
          cases k with
          | zero =>
            simp only [List.getElem?_cons_zero, Option.some.injEq] at hla
            subst hla
            simp only [guessesOpen_mk, decide_eq_true_eq] at hopen
            have hxc : x = c := hopen.1
            subst hxc
            have : (0 : Int) < fr x := by omega
            simp [this]
          | succ k =>
            simp only [List.getElem?_cons_succ] at hla
            rw [ih _ k hla]
            simp only [List.take_succ_cons, List.countP_cons, guessesOpen_mk]
            by_cases hxc : x = c
            · subst hxc
              simp only [Function.update_same, true_and]
              have hst : decide (LetterStatus.WrongPosition ≠ LetterStatus.Correct) = true := by
                decide
              simp only [hst, if_true]
              push_cast
              have hiff : ((List.countP (guessesOpen x) (List.take k
                    (scoreSlots (Function.update fr x (fr x - 1)) sl)) : Int) < fr x - 1)
                  ↔ ((List.countP (guessesOpen x) (List.take k
                    (scoreSlots (Function.update fr x (fr x - 1)) sl)) : Int) + 1 < fr x) := by
                constructor <;> intro h <;> omega
              simp only [hiff]
            · have hcx : c ≠ x := fun h => hxc h.symm
              simp [hxc, Function.update_noteq hcx]

/-- C9: for a target of `W` letters a-z, a row of width `W` and the sub-words `segs` of a
successful `SplitGuess(row, text)` on a text of letters a-z, `CalcAnswer(segs, row)`
returns, and for every letter `c`, among the covered slots that guess `c` and are not
`Correct`, taken left to right, exactly the first `m` have status `WrongPosition` and all
the others `NotInWord`, where `m` is the smaller of the number of such slots and the
occurrences of `c` in the whole target minus the number of `Correct` slots guessing `c`:
the slot at `k` has `WrongPosition` when fewer than `m` such slots lie before `k`, and
`NotInWord` otherwise. -/
theorem CalcAnswer_misplaced (g : Game) (r : Row) (text : String) (segs : List String)
    (_htarget : lowerAZ g.TargetWord) (hW : r.length = g.TargetWord.length)
    (haz : lowerAZ text) (hs : Row.SplitGuess r text = some (segs, true)) :
    ∃ las, g.CalcAnswer segs r = some las ∧
      ∀ (c : rune) (k : Nat) (la : LetterAnswer),
        las[k]? = some la → guessesOpen c la = true →
          la.Status =
            if (((las.take k).countP (guessesOpen c) : Nat) : Int) < misplacedQuota g las c
            then LetterStatus.WrongPosition else LetterStatus.NotInWord := by
  refine ⟨_, CalcAnswer_eq_scoreSlots g r text segs haz hW hs, ?_⟩
  intro c k la hla hopen
  rw [scoreSlots_misplaced _ _ c k la hla hopen]
  have hrank := countP_take_lt (guessesOpen c) _ k la hla hopen
  have hquota : misplacedQuota g
        (scoreSlots (freqAfterCorrect g (slotsOf g r text)) (slotsOf g r text)) c
      = min ((scoreSlots (freqAfterCorrect g (slotsOf g r text)) (slotsOf g r text)).countP
          (guessesOpen c) : Int) (freqAfterCorrect g (slotsOf g r text) c) := by
    simp only [misplacedQuota, freqAfterCorrect, scoreSlots_correct_count, targetFreq_eq_count]
  rw [hquota]
  have hiff : ((((scoreSlots (freqAfterCorrect g (slotsOf g r text)) (slotsOf g r text)).take
        k).countP (guessesOpen c) : Nat) : Int)
        < min ((scoreSlots (freqAfterCorrect g (slotsOf g r text)) (slotsOf g r text)).countP
          (guessesOpen c) : Int) (freqAfterCorrect g (slotsOf g r text) c)
      ↔ ((((scoreSlots (freqAfterCorrect g (slotsOf g r text)) (slotsOf g r text)).take
        k).countP (guessesOpen c) : Nat) : Int) < freqAfterCorrect g (slotsOf g r text) c := by
    rw [lt_min_iff]
    constructor
    · intro h
      exact h.2
    · intro h
      exact ⟨by exact_mod_cast hrank, h⟩
  simp only [hiff]

/-- Witness of C9: target `robot`, full-width row, guess `boots`, which scores
`WrongPosition, Correct, WrongPosition, WrongPosition, NotInWord`. -/
theorem CalcAnswer_misplaced_witness :
    (lowerAZ "robot" ∧ [true, true, true, true, true].length = "robot".length ∧
      lowerAZ "boots" ∧
      Row.SplitGuess [true, true, true, true, true] "boots" = some (["boots"], true) ∧
      Game.CalcAnswer ⟨"robot", [], 0⟩ ["boots"] [true, true, true, true, true]
        = some [⟨"b", LetterStatus.WrongPosition⟩, ⟨"o", LetterStatus.Correct⟩,
            ⟨"o", LetterStatus.WrongPosition⟩, ⟨"t", LetterStatus.WrongPosition⟩,
            ⟨"s", LetterStatus.NotInWord⟩]) ∧
    ∃ las, Game.CalcAnswer ⟨"robot", [], 0⟩ ["boots"] [true, true, true, true, true]
        = some las ∧
      ∀ (c : rune) (k : Nat) (la : LetterAnswer),
        las[k]? = some la → guessesOpen c la = true →
          la.Status =
            if (((las.take k).countP (guessesOpen c) : Nat) : Int)
                < misplacedQuota ⟨"robot", [], 0⟩ las c
            then LetterStatus.WrongPosition else LetterStatus.NotInWord :=
  ⟨⟨by decide, by decide, by decide, by decide, by decide⟩,
    CalcAnswer_misplaced ⟨"robot", [], 0⟩ [true, true, true, true, true] "boots"
      ["boots"] (by decide) (by decide) (by decide) (by decide)⟩

end srordle

namespace trie

theorem New_loop_filter (ws : List String) (t : Trie) :
    New.loop ws t = New.loop (ws.filter (fun s => decide (lowerAZ s))) t := by
  induction ws generalizing t with
  | nil => rfl
  | cons w ws ih =>
    by_cases hw : lowerAZ w
    · simp only [List.filter_cons, hw, decide_True, if_true, New.loop,
        addWord_of_lowerAZ t w hw, ih]
    · obtain ⟨e, he⟩ := addWord_of_not_lowerAZ t w hw
      simp only [List.filter_cons, hw, decide_False, Bool.false_eq_true, if_false, New.loop, he,
        ih]

/-- C13: for every trie and every word that holds a character outside a-z, `addWord`
returns an error and leaves the trie exactly as it was; consequently the trie `New` builds
from any list is the trie it builds from the list with all such entries removed. -/
theorem addWord_rejects_invalid (t : Trie) (w : String) (ws : List String) :
    ((∃ r ∈ w.toList, ¬ isAZ r) → ∃ e, t.addWord w = some (t, some e)) ∧
    New (Reader.ofWords ws)
      = New (Reader.ofWords (ws.filter (fun s => decide (lowerAZ s)))) := by
  constructor
  · rintro ⟨r, hr, hnot⟩
    exact addWord_of_not_lowerAZ t w (fun h => hnot (h r hr))
  · simp only [New, Reader.ofWords, New_loop_filter ws]

theorem insertRunes_idem (w : List rune) (nodes : nodeArray) :
    insertRunes (insertRunes nodes w) w = insertRunes nodes w := by
  induction w generalizing nodes with
  | nil => rfl
  | cons r rest ih =>
    simp only [insertRunes, Function.update_same, Function.update_idem, ih]
    by_cases hrest : rest = [] <;> simp [hrest]

/-- C14: insertion is idempotent: for every trie and every word `w`, a second `addWord(w)`
returns what the first returned and leaves the trie (nodes, leaf flags, size) as the first
call left it. -/
theorem addWord_idempotent (t : Trie) (w : String) :
    ∃ t1 e, t.addWord w = some (t1, e) ∧ t1.addWord w = some (t1, e) := by
  by_cases hw : lowerAZ w
  · refine ⟨_, none, addWord_of_lowerAZ t w hw, ?_⟩
    rw [addWord_of_lowerAZ _ w hw]
    simp only [insertRunes_idem]
  · obtain ⟨e, he⟩ := addWord_of_not_lowerAZ t w hw
    exact ⟨t, some e, he, he⟩

end trie

namespace srordle

theorem chop_append (ns : List Nat) (t e : List rune) (h : ns.sum ≤ t.length) :
    chop ns (t ++ e) = chop ns t := by
  induction ns generalizing t with
  | nil => rfl
  | cons n ns ih =>
    simp only [List.sum_cons] at h
    have hn : n ≤ t.length := by omega
    simp only [chop, List.take_append_of_le_length hn, List.drop_append_of_le_length hn]
    rw [ih (t.drop n) (by simp only [List.length_drop]; omega)]

/-- C15: `SplitGuess` ignores trailing characters: for every row with `k` true slots, every
text with at least `k` characters and every extra string, `SplitGuess(row, text ++ extra)`
succeeds and returns the same sub-words as `SplitGuess(row, text)`. -/
theorem SplitGuess_ignores_trailing (r : Row) (text extra : String)
    (h : r.count true ≤ text.length) :
    ∃ segs, Row.SplitGuess r text = some (segs, true) ∧
      Row.SplitGuess r (text ++ extra) = some (segs, true) := by
  have hsum : (Row.ToTargetWordLengths r).sum ≤ text.toList.length := by
    have hl : text.length = text.toList.length := rfl
    rw [ToTargetWordLengths_eq]
    have := runsFrom_sum r 0 0
    omega
  have hlen : (text ++ extra).length = text.length + extra.length := String.length_append _ _
  refine ⟨_, SplitGuess_ok r text h, ?_⟩
  rw [SplitGuess_ok r (text ++ extra) (by omega)]
  have happ : (text ++ extra).toList = text.toList ++ extra.toList := String.data_append _ _
  rw [happ, chop_append _ _ _ hsum]

/-- Witness of C15: the row `[T,T,T,F,T,T,T]` splits `catdogs` as it splits `catdog`. -/
theorem SplitGuess_ignores_trailing_witness :
    [true, true, true, false, true, true, true].count true ≤ "catdog".length ∧
    ∃ segs, Row.SplitGuess [true, true, true, false, true, true, true] "catdog"
        = some (segs, true) ∧
      Row.SplitGuess [true, true, true, false, true, true, true] ("catdog" ++ "s")
        = some (segs, true) :=
  ⟨by decide,
    SplitGuess_ignores_trailing [true, true, true, false, true, true, true] "catdog" "s"
      (by decide)⟩

theorem runsFrom_replicate (n i c : Nat) :
    runsFrom i c (List.replicate n true)
      = if c + n > 0 then [(i + n - (c + n), c + n)] else [] := by
  induction n generalizing i c with
  | zero => simp [runsFrom]
  | succ n ih =>
    simp only [List.replicate_succ, runsFrom, ih (i + 1) (c + 1)]
    have h1 : c + 1 + n > 0 := by omega
    have h2 : c + (n + 1) > 0 := by omega
    simp only [h1, h2, if_true]
    congr 2 <;> omega

theorem guessAt_replicate_zip (t : List rune) :
    (guessAt (List.replicate t.length true) t).zip t = t.map (fun c => (some c, c)) := by
  induction t with
  | nil => rfl
  | cons x t ih =>
    simp only [List.length_cons, List.replicate_succ, guessAt, List.zip_cons_cons, ih,
      List.map_cons]

theorem scoreSlots_all_exact (fr : rune → Int) (t : List rune) :
    scoreSlots fr (t.map (fun c => (some c, c)))
      = t.map (fun c => (⟨String.singleton c, LetterStatus.Correct⟩ : LetterAnswer)) := by
  induction t with
  | nil => rfl
  | cons x t ih => simp only [List.map_cons, scoreSlots, if_true, ih]

theorem SplitGuess_full_row (text : String) (hne : text.toList ≠ []) :
    Row.SplitGuess (List.replicate text.length true) text = some ([text], true) := by
  have hl : text.length = text.toList.length := rfl
  have hpos : 0 < text.toList.length := List.length_pos.mpr hne
  rw [SplitGuess_ok _ text (by simp), ToTargetWordLengths_eq, runsFrom_replicate]
  have h0 : 0 + text.length > 0 := by omega
  rw [if_pos h0]
  simp only [List.map_cons, List.map_nil, chop, Nat.zero_add, hl, List.take_length]
  rfl

/-- C11: for every target word `t` of letters a-z and the all-true row of the same width,
`CalcAnswer([t], row)` marks every slot `Correct` with the letter of `t` at that slot, and
the win condition (a single sub-word equal to the target) is true. -/
theorem CalcAnswer_target_all_correct (g : Game) (haz : lowerAZ g.TargetWord) :
    g.CalcAnswer [g.TargetWord] (List.replicate g.TargetWord.length true)
      = some (g.TargetWord.toList.map
          (fun c => (⟨String.singleton c, LetterStatus.Correct⟩ : LetterAnswer))) ∧
    g.isTarget [g.TargetWord] = true := by
  constructor
  · by_cases hne : g.TargetWord.toList = []
    · have hl : g.TargetWord.length = 0 := by
        have : g.TargetWord.length = g.TargetWord.toList.length := rfl
        rw [this, hne]
        rfl
      have hne' : g.TargetWord.data = [] := hne
      simp [Game.CalcAnswer, hl, hne', forEachLetter, rangeString, rangeRunes,
        forEachLetter.inner]
    · have hs := SplitGuess_full_row g.TargetWord hne
      rw [CalcAnswer_eq_scoreSlots g _ g.TargetWord [g.TargetWord] haz (by simp) hs]
      have hl : g.TargetWord.length = g.TargetWord.toList.length := rfl
      simp only [slotsOf, hl, guessAt_replicate_zip, scoreSlots_all_exact]
  · simp [Game.isTarget]

/-- Witness of C11: target `telling`, guess `telling`. -/
theorem CalcAnswer_target_all_correct_witness :
    lowerAZ "telling" ∧
    Game.CalcAnswer ⟨"telling", [], 2⟩ ["telling"] (List.replicate "telling".length true)
      = some ("telling".toList.map
          (fun c => (⟨String.singleton c, LetterStatus.Correct⟩ : LetterAnswer))) ∧
    Game.isTarget ⟨"telling", [], 2⟩ ["telling"] = true :=
  ⟨by decide, CalcAnswer_target_all_correct ⟨"telling", [], 2⟩ (by decide)⟩

theorem guessesMatched_blank (c : rune) :
    guessesMatched c ⟨"", LetterStatus.PositionNotUsed⟩ = false := by
  simp [guessesMatched]

theorem guessesMatched_mk (c x : rune) (st : LetterStatus) :
    guessesMatched c ⟨String.singleton x, st⟩
      = decide (x = c ∧ (st = LetterStatus.Correct ∨ st = LetterStatus.WrongPosition)) := by
  simp only [guessesMatched, singleton_inj]

theorem scoreSlots_matched_le (fr : rune → Int) (sl : List (Option rune × rune)) (c : rune) :
    (scoreSlots fr sl).countP (guessesMatched c) ≤ sl.countP (exactAt c) + (fr c).toNat := by
  induction sl generalizing fr with
  | nil => simp [scoreSlots]
  | cons p sl ih =>
    obtain ⟨gx, t⟩ := p
    cases gx with
    | none =>
      have hex : exactAt c (none, t) = false := by simp [exactAt]
      simp only [scoreSlots, List.countP_cons, guessesMatched_blank, hex, Bool.false_eq_true,
        if_false, Nat.add_zero]
      exact ih fr
    | some x =>
      by_cases hxt : x = t
      · subst hxt
        have hex : exactAt c (some x, x) = decide (x = c) := by
          simp only [exactAt, Option.some.injEq, and_self]
        have hm : guessesMatched c ⟨String.singleton x, LetterStatus.Correct⟩
            = decide (x = c) := by
          rw [guessesMatched_mk]
          simp
        simp only [scoreSlots, if_true, List.countP_cons, hm, hex]
        have := ih fr
        omega
      · have hex : exactAt c (some x, t) = false := by
          simp only [exactAt, decide_eq_false_iff_not, not_and, Option.some.injEq]
          intro h1 h2
          exact hxt (by rw [h1, h2])
        by_cases hfr : fr x ≤ 0
        · have hm : guessesMatched c ⟨String.singleton x, LetterStatus.NotInWord⟩ = false := by
            rw [guessesMatched_mk]
            simp
          simp only [scoreSlots, hxt, hfr, if_true, if_false, List.countP_cons, hm, hex,
            Bool.false_eq_true, Nat.add_zero]
          exact ih fr
        · have hm : guessesMatched c ⟨String.singleton x, LetterStatus.WrongPosition⟩
              = decide (x = c) := by
            rw [guessesMatched_mk]
            simp
          simp only [scoreSlots, hxt, hfr, if_false, List.countP_cons, hm, hex,
            Bool.false_eq_true, Nat.add_zero]
          have := ih (Function.update fr x (fr x - 1))
          by_cases hxc : x = c
          · subst hxc
            simp only [Function.update_same] at this
            simp only [decide_True, if_true]
            omega
          · have hcx : c ≠ x := fun h => hxc h.symm
            simp only [Function.update_noteq hcx] at this
            simp only [hxc, decide_False, Bool.false_eq_true, if_false, Nat.add_zero]
            exact this

theorem exact_count_le (sl : List (Option rune × rune)) (c : rune) :
    sl.countP (exactAt c) ≤ (sl.map Prod.snd).count c := by
  induction sl with
  | nil => simp
  | cons p sl ih =>
    obtain ⟨gx, t⟩ := p
    simp only [List.countP_cons, List.map_cons, List.count_cons]
    by_cases htc : t = c
    · subst htc
      simp only [beq_self_eq_true, if_true]
      split_ifs <;> omega
    · have hex : exactAt c (gx, t) = false := by
        simp only [exactAt, decide_eq_false_iff_not, not_and]
        intro _ h2
        exact htc h2
      simp only [hex, Bool.false_eq_true, if_false]
      split_ifs <;> omega

theorem slotsOf_map_snd (g : Game) (r : Row) (text : String)
    (hW : r.length = g.TargetWord.length) :
    (slotsOf g r text).map Prod.snd = g.TargetWord.toList := by
  have hl : g.TargetWord.length = g.TargetWord.toList.length := rfl
  simp only [slotsOf]
  rw [List.map_snd_zip]
  rw [guessAt_length]
  omega

/-- C12: for a target of `W` letters a-z, a row of width `W` and the sub-words `segs` of a
successful `SplitGuess(row, text)` on a text of letters a-z, `CalcAnswer(segs, row)`
returns, and for every letter `c` the number of its slots whose letter is `c` and whose
status is `Correct` or `WrongPosition` is at most the number of occurrences of `c` in the
target. -/
theorem CalcAnswer_matches_bounded (g : Game) (r : Row) (text : String) (segs : List String)
    (_htarget : lowerAZ g.TargetWord) (hW : r.length = g.TargetWord.length)
    (haz : lowerAZ text) (hs : Row.SplitGuess r text = some (segs, true)) :
    ∃ las, g.CalcAnswer segs r = some las ∧
      ∀ c : rune, las.countP (guessesMatched c) ≤ g.TargetWord.toList.count c := by
  refine ⟨_, CalcAnswer_eq_scoreSlots g r text segs haz hW hs, ?_⟩
  intro c
  have h1 := scoreSlots_matched_le (freqAfterCorrect g (slotsOf g r text)) (slotsOf g r text) c
  have h2 := exact_count_le (slotsOf g r text) c
  rw [slotsOf_map_snd g r text hW] at h2
  have h3 : freqAfterCorrect g (slotsOf g r text) c
      = (g.TargetWord.toList.count c : Int) - ((slotsOf g r text).countP (exactAt c) : Int) := by
    simp only [freqAfterCorrect, targetFreq_eq_count]
  rw [h3] at h1
  omega

/-- Witness of C12: target `robot`, full-width row, guess `boots`. -/
theorem CalcAnswer_matches_bounded_witness :
    (lowerAZ "robot" ∧ [true, true, true, true, true].length = "robot".length ∧
      lowerAZ "boots" ∧
      Row.SplitGuess [true, true, true, true, true] "boots" = some (["boots"], true)) ∧
    ∃ las, Game.CalcAnswer ⟨"robot", [], 0⟩ ["boots"] [true, true, true, true, true]
        = some las ∧
      ∀ c : rune, las.countP (guessesMatched c) ≤ "robot".toList.count c :=
  ⟨⟨by decide, by decide, by decide, by decide⟩,
    CalcAnswer_matches_bounded ⟨"robot", [], 0⟩ [true, true, true, true, true] "boots"
      ["boots"] (by decide) (by decide) (by decide) (by decide)⟩

theorem slotsOf_covered (g : Game) (r : Row) (text : String) (k : Nat) (x t : rune)
    (h : (slotsOf g r text)[k]? = some (some x, t)) :
    r[k]? = some true ∧ g.TargetWord.toList[k]? = some t := by
  rw [slotsOf, List.getElem?_zip_eq_some] at h
  obtain ⟨h1, h2⟩ := h
  refine ⟨?_, h2⟩
  obtain ⟨hk, _⟩ := List.getElem?_eq_some.mp h1
  rw [guessAt_length] at hk
  rcases row_getElem_cases r k hk with hr | hr
  · exact hr
  · rw [guessAt_false r text.toList k hr] at h1
    simp at h1

theorem scoreSlots_letter (fr : rune → Int) (sl : List (Option rune × rune)) (k : Nat)
    (la : LetterAnswer) (c : rune) (hla : (scoreSlots fr sl)[k]? = some la)
    (hc : la.Letter = String.singleton c) :
    ∃ t, sl[k]? = some (some c, t) ∧ (la.Status = LetterStatus.Correct ↔ c = t) := by
  have hk : k < sl.length := by
    obtain ⟨h, _⟩ := List.getElem?_eq_some.mp hla
    rw [scoreSlots_length] at h
    exact h
  obtain ⟨la', hla', h1, h2⟩ := scoreSlots_getElem fr sl k sl[k] (List.getElem?_eq_getElem hk)
  rw [hla] at hla'
  cases hla'
  cases hp : sl[k] with
  | mk gx t =>
    rw [hp] at h1 h2
    cases gx with
    | none =>
      have := h1 rfl
      rw [this] at hc
      exact absurd hc.symm (singleton_ne_empty c)
    | some x =>
      obtain ⟨hl, hst, _⟩ := h2 x rfl
      have hxc : x = c := singleton_inj.mp (hl.symm.trans hc)
      subst hxc
      exact ⟨t, by rw [List.getElem?_eq_getElem hk, hp], hst⟩

/-- C16: letters at uncovered slots stay available: for a target of `W` letters a-z, a row
of width `W` and the sub-words `segs` of a successful `SplitGuess(row, text)` on a text of
letters a-z, if the letter `c` occurs in the target and only at slots where the row is
false, then in `CalcAnswer(segs, row)` the leftmost covered slot that guesses `c` (a slot
whose letter is `c` with no such slot before it) has status `WrongPosition`. -/
theorem CalcAnswer_uncovered_letter_available (g : Game) (r : Row) (text : String)
    (segs : List String) (c : rune)
    (_htarget : lowerAZ g.TargetWord) (hW : r.length = g.TargetWord.length)
    (haz : lowerAZ text) (hs : Row.SplitGuess r text = some (segs, true))
    (hocc : c ∈ g.TargetWord.toList)
    (honly : ∀ k : Nat, g.TargetWord.toList[k]? = some c → r[k]? = some false) :
    ∃ las, g.CalcAnswer segs r = some las ∧
      ∀ (k : Nat) (la : LetterAnswer), las[k]? = some la → la.Letter = String.singleton c →
        (∀ (j : Nat) (la' : LetterAnswer), j < k → las[j]? = some la' →
          la'.Letter ≠ String.singleton c) →
        la.Status = LetterStatus.WrongPosition := by
  refine ⟨_, CalcAnswer_eq_scoreSlots g r text segs haz hW hs, ?_⟩
  intro k la hla hletter hfirst
  have hnotexact : ∀ (j : Nat) (t : rune), (slotsOf g r text)[j]? = some (some c, t) → c ≠ t := by
    intro j t hj hct
    obtain ⟨hr, ht⟩ := slotsOf_covered g r text j c t hj
    rw [← hct] at ht
    rw [honly j ht] at hr
    cases hr
  obtain ⟨t, hsl, hst⟩ := scoreSlots_letter _ _ k la c hla hletter
  have hopen : guessesOpen c la = true := by
    simp only [guessesOpen, decide_eq_true_eq]
    exact ⟨hletter, fun h => hnotexact k t hsl (hst.mp h)⟩
  rw [scoreSlots_misplaced _ _ c k la hla hopen]
  have hrank : ((scoreSlots (freqAfterCorrect g (slotsOf g r text)) (slotsOf g r text)).take
      k).countP (guessesOpen c) = 0 := by
    apply List.countP_eq_zero.mpr
    intro a ha hopen'
    obtain ⟨j, hj⟩ := List.mem_iff_getElem?.mp ha
    rw [List.getElem?_take] at hj
    split_ifs at hj with hjk
    simp only [guessesOpen, decide_eq_true_eq] at hopen'
    exact hfirst j a hjk hj hopen'.1
  have hexact : (slotsOf g r text).countP (exactAt c) = 0 := by
    apply List.countP_eq_zero.mpr
    intro p hp hex
    obtain ⟨j, hj⟩ := List.mem_iff_getElem?.mp hp
    obtain ⟨gx, t'⟩ := p
    simp only [exactAt, decide_eq_true_eq] at hex
    obtain ⟨h1, h2⟩ := hex
    subst h1
    exact hnotexact j t' hj h2.symm
  have hcount : 0 < g.TargetWord.toList.count c := List.count_pos_iff.mpr hocc
  have hF : (0 : Int) < freqAfterCorrect g (slotsOf g r text) c := by
    simp only [freqAfterCorrect, targetFreq_eq_count, hexact]
    omega
  rw [hrank]
  simp only [Nat.cast_zero, hF, if_true]

/-- Witness of C16: target `robot`, row `[F,T,T,T,T]`, text `rats`: the `r` of the target
sits at the uncovered slot 0 and the guessed `r` at slot 1 is `WrongPosition`. -/
theorem CalcAnswer_uncovered_letter_available_witness :
    (lowerAZ "robot" ∧ [false, true, true, true, true].length = "robot".length ∧
      lowerAZ "rats" ∧
      Row.SplitGuess [false, true, true, true, true] "rats" = some (["rats"], true) ∧
      'r' ∈ "robot".toList ∧
      Game.CalcAnswer ⟨"robot", [], 0⟩ ["rats"] [false, true, true, true, true]
        = some [⟨"", LetterStatus.PositionNotUsed⟩, ⟨"r", LetterStatus.WrongPosition⟩,
            ⟨"a", LetterStatus.NotInWord⟩, ⟨"t", LetterStatus.WrongPosition⟩,
            ⟨"s", LetterStatus.NotInWord⟩]) ∧
    ∃ las, Game.CalcAnswer ⟨"robot", [], 0⟩ ["rats"] [false, true, true, true, true]
        = some las ∧
      ∀ (k : Nat) (la : LetterAnswer), las[k]? = some la → la.Letter = String.singleton 'r' →
        (∀ (j : Nat) (la' : LetterAnswer), j < k → las[j]? = some la' →
          la'.Letter ≠ String.singleton 'r') →
        la.Status = LetterStatus.WrongPosition :=
  ⟨⟨by decide, by decide, by decide, by decide, by decide, by decide⟩,
    CalcAnswer_uncovered_letter_available ⟨"robot", [], 0⟩ [false, true, true, true, true]
      "rats" ["rats"] 'r' (by decide) (by decide) (by decide) (by decide) (by decide)
      (by
        intro k hk
        match k, hk with
        | 0, _ => rfl
        | 1, hk => exact absurd hk (by decide)
        | 2, hk => exact absurd hk (by decide)
        | 3, hk => exact absurd hk (by decide)
        | 4, hk => exact absurd hk (by decide)
        | (n + 5), hk => exact absurd hk (by simp))⟩

theorem correct_at_iff (g : Game) (r : Row) (text : String) (fr : rune → Int) (k : Nat)
    (hW : r.length = g.TargetWord.length) (hcount : r.count true ≤ text.toList.length)
    (hk : k < g.TargetWord.length) :
    (∃ la, (scoreSlots fr (slotsOf g r text))[k]? = some la ∧
        la.Status = LetterStatus.Correct) ↔
      (r[k]? = some true ∧
        ∃ x, text.toList[(r.take k).count true]? = some x ∧
          g.TargetWord.toList[k]? = some x) := by
  rcases row_getElem_cases r k (by omega) with hr | hr
  · obtain ⟨x, t, hx, ht, hsl⟩ := slotsOf_true g r text k hW hcount hr
    obtain ⟨la, hla, _, h2⟩ := scoreSlots_getElem fr _ k _ hsl
    obtain ⟨_, hc, _⟩ := h2 x rfl
    constructor
    · rintro ⟨la', hla', hst⟩
      rw [hla] at hla'
      cases hla'
      have hxt : x = t := hc.mp hst
      exact ⟨hr, x, hx, by rw [ht, hxt]⟩
    · rintro ⟨_, y, hy, hty⟩
      rw [hx] at hy
      cases hy
      rw [ht] at hty
      cases hty
      exact ⟨la, hla, hc.mpr rfl⟩
  · obtain ⟨t, ht, hsl⟩ := slotsOf_false g r text k hW hr
    obtain ⟨la, hla, h1, _⟩ := scoreSlots_getElem fr _ k _ hsl
    have hblank := h1 rfl
    constructor
    · rintro ⟨la', hla', hst⟩
      rw [hla] at hla'
      cases hla'
      rw [hblank] at hst
      cases hst
    · rintro ⟨hr', _⟩
      rw [hr] at hr'
      cases hr'

theorem rank_replicate (W k : Nat) (hk : k ≤ W) :
    ((List.replicate W true).take k).count true = k := by
  rw [List.take_replicate, List.count_replicate_self]
  omega

theorem lengths_replicate (W : Nat) (hW : 0 < W) :
    (runsFrom 0 0 (List.replicate W true)).map Prod.snd = [W] := by
  rw [runsFrom_replicate]
  have h0 : 0 + W > 0 := by omega
  rw [if_pos h0]
  simp

theorem all_true_of_all_correct (r : Row) (W : Nat) (hW : r.length = W)
    (h : ∀ k : Nat, k < W → r[k]? = some true) : r = List.replicate W true := by
  apply List.ext_getElem?
  intro k
  rw [List.getElem?_replicate]
  by_cases hk : k < W
  · rw [if_pos hk, h k hk]
  · rw [if_neg hk]
    exact List.getElem?_eq_none_iff.mpr (by omega)

theorem all_true_of_count (r : Row) (h : r.count true = r.length) :
    r = List.replicate r.length true := by
  apply List.eq_replicate_iff.mpr
  refine ⟨rfl, ?_⟩
  intro b hb
  exact (List.count_eq_length.mp h b hb).symm

theorem isTarget_iff (g : Game) (words : List String) :
    g.isTarget words = true ↔ words = [g.TargetWord] := by
  constructor
  · intro h
    simp only [Game.isTarget, Bool.and_eq_true, beq_iff_eq] at h
    obtain ⟨h1, h2⟩ := h
    obtain ⟨a, ha⟩ := List.length_eq_one.mp h1
    subst ha
    simp only [List.getElem?_cons_zero, Option.some.injEq] at h2
    rw [h2]
  · intro h
    subst h
    simp [Game.isTarget]

/-- C20: the score and the win flag agree: for a non-empty target of `W` letters a-z, a
row of width `W` and the sub-words `segs` of a successful `SplitGuess(row, text)` on a text
of letters a-z, every one of the `W` slots of `CalcAnswer(segs, row)` is `Correct` if and
only if `segs` is exactly one sub-word and that sub-word is the target, which is the
`Won` test of the server and the test `foundTarget` applies to a guess. -/
theorem CalcAnswer_all_correct_iff_won (g : Game) (r : Row) (text : String)
    (segs : List String) (hne : g.TargetWord ≠ "")
    (_htarget : lowerAZ g.TargetWord) (hW : r.length = g.TargetWord.length)
    (haz : lowerAZ text) (hs : Row.SplitGuess r text = some (segs, true)) :
    ∃ las, g.CalcAnswer segs r = some las ∧
      ((∀ k : Nat, k < g.TargetWord.length →
          ∃ la, las[k]? = some la ∧ la.Status = LetterStatus.Correct) ↔
        g.isTarget segs = true) ∧
      ∀ (guessedAt : Int) (full : Bool),
        g.foundTarget [⟨segs, guessedAt, full⟩] = g.isTarget segs := by
  refine ⟨_, CalcAnswer_eq_scoreSlots g r text segs haz hW hs, ?_, ?_⟩
  · obtain ⟨hcount, hsegs⟩ := SplitGuess_true_inv r text segs hs
    have hl : g.TargetWord.length = g.TargetWord.toList.length := rfl
    have hmk : String.mk g.TargetWord.toList = g.TargetWord := (trie.mk_eq_iff _ _).mpr rfl
    have hpos : 0 < g.TargetWord.length := by
      rw [hl]
      exact List.length_pos.mpr ((trie.toList_ne_nil_iff _).mpr hne)
    rw [isTarget_iff]
    constructor
    · intro hall
      have hpt : ∀ k : Nat, k < g.TargetWord.length →
          (r[k]? = some true ∧ ∃ x, text.toList[(r.take k).count true]? = some x ∧
            g.TargetWord.toList[k]? = some x) :=
        fun k hk => (correct_at_iff g r text _ k hW hcount hk).mp (hall k hk)
      have hr : r = List.replicate g.TargetWord.length true :=
        all_true_of_all_correct r _ hW (fun k hk => (hpt k hk).1)
      have htake : text.toList.take g.TargetWord.length = g.TargetWord.toList := by
        apply List.ext_getElem?
        intro k
        rw [List.getElem?_take]
        by_cases hk : k < g.TargetWord.length
        · rw [if_pos hk]
          obtain ⟨_, x, hx, ht⟩ := hpt k hk
          rw [hr, rank_replicate _ k (by omega)] at hx
          rw [hx, ht]
        · rw [if_neg hk]
          exact (List.getElem?_eq_none_iff.mpr (by omega)).symm
      rw [hsegs, hr, lengths_replicate _ hpos]
      simp only [chop, List.map_cons, List.map_nil, htake, hmk]
    · intro hone
      rw [hsegs] at hone
      have hlen1 : ((runsFrom 0 0 r).map Prod.snd).length = 1 := by
        have := congrArg List.length hone
        simpa [chop_length] using this
      obtain ⟨n, hn⟩ := List.length_eq_one.mp hlen1
      have hsum : r.count true = n := by
        have := runsFrom_sum r 0 0
        rw [hn] at this
        simpa using this.symm
      rw [hn] at hone
      simp only [chop, List.map_cons, List.map_nil, List.cons.injEq, and_true] at hone
      have htake : text.toList.take n = g.TargetWord.toList := (trie.mk_eq_iff _ _).mp hone
      have hnW : n = g.TargetWord.length := by
        have := congrArg List.length htake
        rw [List.length_take] at this
        omega
      have hr : r = List.replicate g.TargetWord.length true := by
        have := all_true_of_count r (by omega)
        rw [hW] at this
        exact this
      intro k hk
      apply (correct_at_iff g r text _ k hW hcount hk).mpr
      have hkt : k < g.TargetWord.toList.length := by omega
      refine ⟨by rw [hr, List.getElem?_replicate, if_pos hk], g.TargetWord.toList[k], ?_,
        List.getElem?_eq_getElem hkt⟩
      have hrank : (r.take k).count true = k := by
        rw [hr]
        exact rank_replicate _ k (by omega)
      rw [hrank, ← List.getElem?_eq_getElem hkt, ← htake, List.getElem?_take, hnW, if_pos hk]
  · intro guessedAt full
    simp only [Game.foundTarget]
    cases g.isTarget segs <;> rfl

/-- Witness of C20: target `robot`, full-width row, text `robot`. -/
theorem CalcAnswer_all_correct_iff_won_witness :
    ("robot" ≠ "" ∧ lowerAZ "robot" ∧ [true, true, true, true, true].length = "robot".length ∧
      lowerAZ "robot" ∧
      Row.SplitGuess [true, true, true, true, true] "robot" = some (["robot"], true)) ∧
    ∃ las, Game.CalcAnswer ⟨"robot", [], 0⟩ ["robot"] [true, true, true, true, true]
        = some las ∧
      ((∀ k : Nat, k < "robot".length →
          ∃ la, las[k]? = some la ∧ la.Status = LetterStatus.Correct) ↔
        Game.isTarget ⟨"robot", [], 0⟩ ["robot"] = true) ∧
      ∀ (guessedAt : Int) (full : Bool),
        Game.foundTarget ⟨"robot", [], 0⟩ [⟨["robot"], guessedAt, full⟩]
          = Game.isTarget ⟨"robot", [], 0⟩ ["robot"] :=
  ⟨⟨by decide, by decide, by decide, by decide, by decide⟩,
    CalcAnswer_all_correct_iff_won ⟨"robot", [], 0⟩ [true, true, true, true, true] "robot"
      ["robot"] (by decide) (by decide) (by decide) (by decide) (by decide)⟩

end srordle

namespace trie

theorem nodeAt_zero (p : List rune) : nodeAt nodeArray.zero p = none := by
  cases p with
  | nil => rfl
  | cons r rest => simp [nodeAt, nodeArray.zero]

theorem memberRunes_eq_nodeAt (nodes : nodeArray) (p : List rune) :
    memberRunes nodes p = (match nodeAt nodes p with
      | some nd => nd.leaf
      | none => false) := by
  induction p generalizing nodes with
  | nil => rfl
  | cons r rest ih =>
    simp only [memberRunes, nodeAt]
    cases nodes (slotOf r) with
    | none => rfl
    | some nd =>
      simp only
      by_cases hrest : rest = []
      · simp [hrest]
      · simp only [hrest, if_false]
        exact ih nd.children

theorem nodeAt_insertRunes (w : List rune) (nodes : nodeArray) (p : List rune)
    (hw : ∀ r ∈ w, isAZ r) (hp : ∀ r ∈ p, isAZ r) (hne : p ≠ []) :
    (∃ nd, nodeAt (insertRunes nodes w) p = some nd) ↔
      (p <+: w ∨ ∃ nd, nodeAt nodes p = some nd) := by
  induction w generalizing nodes p with
  | nil =>
    simp only [insertRunes, List.prefix_nil, hne, false_or]
  | cons r rest ih =>
    have hr : isAZ r := hw r (List.mem_cons_self _ _)
    have hrest : ∀ x ∈ rest, isAZ x := fun x hx => hw x (List.mem_cons_of_mem _ hx)
    cases p with
    | nil => exact absurd rfl hne
    | cons a ps =>
      have ha : isAZ a := hp a (List.mem_cons_self _ _)
      have hps : ∀ x ∈ ps, isAZ x := fun x hx => hp x (List.mem_cons_of_mem _ hx)
      by_cases hs : slotOf a = slotOf r
      · have har : a = r := slotOf_inj ha hr hs
        subst har
        simp only [nodeAt, insertRunes, Function.update_same, List.cons_prefix_cons, true_and]
        by_cases hps0 : ps = []
        · subst hps0
          simp
        · simp only [hps0, if_false]
          rw [ih _ ps hrest hps hps0]
          cases nodes (slotOf a) with
          | none => simp [nodeAt_zero]
          | some nd => rfl
      · have har : a ≠ r := fun h => hs (by rw [h])
        simp only [nodeAt, insertRunes, Function.update_noteq hs, List.cons_prefix_cons, har,
          false_and, false_or]

theorem LetterOK_zero : LetterOK nodeArray.zero := by
  intro p nd _ h
  rw [nodeAt_zero] at h
  cases h

theorem LetterOK_children (nodes : nodeArray) (r : rune) (nd : node) (hr : isAZ r)
    (h : LetterOK nodes) (hnd : nodes (slotOf r) = some nd) : LetterOK nd.children := by
  intro p nd' hp hp'
  cases p with
  | nil => simp [nodeAt] at hp'
  | cons a ps =>
    have haz : ∀ x ∈ r :: a :: ps, isAZ x := by
      intro x hx
      rcases List.mem_cons.mp hx with hx | hx
      · rw [hx]; exact hr
      · exact hp x hx
    have := h (r :: a :: ps) nd' haz (by simp only [nodeAt, hnd]; simpa using hp')
    simpa using this

theorem LetterOK_insertRunes (w : List rune) (nodes : nodeArray) (hw : ∀ r ∈ w, isAZ r)
    (h : LetterOK nodes) : LetterOK (insertRunes nodes w) := by
  induction w generalizing nodes with
  | nil => exact h
  | cons r rest ih =>
    have hr : isAZ r := hw r (List.mem_cons_self _ _)
    have hrest : ∀ x ∈ rest, isAZ x := fun x hx => hw x (List.mem_cons_of_mem _ hx)
    intro p nd hp hnode
    cases p with
    | nil => simp [nodeAt] at hnode
    | cons a ps =>
      have ha : isAZ a := hp a (List.mem_cons_self _ _)
      have hps : ∀ x ∈ ps, isAZ x := fun x hx => hp x (List.mem_cons_of_mem _ hx)
      by_cases hs : slotOf a = slotOf r
      · have har : a = r := slotOf_inj ha hr hs
        subst har
        simp only [nodeAt, insertRunes, Function.update_same] at hnode
        by_cases hps0 : ps = []
        · subst hps0
          simp only [if_true, Option.some.injEq] at hnode
          rw [← hnode]
          simp only [List.getLast?_singleton, Option.some.injEq]
          cases hcur : nodes (slotOf a) with
          | none => rfl
          | some old =>
            have := h [a] old (fun x hx => by rw [List.mem_singleton.mp hx]; exact ha)
              (by simp [nodeAt, hcur])
            simpa using this
        · simp only [hps0, if_false] at hnode
          have hchild : LetterOK (match nodes (slotOf a) with
              | none => ({ leaf := false, letter := a, children := nodeArray.zero } : node)
              | some nd => nd).children := by
            cases hcur : nodes (slotOf a) with
            | none => exact LetterOK_zero
            | some old => exact LetterOK_children nodes a old ha h hcur
          have := ih _ hrest hchild ps nd hps hnode
          cases ps with
          | nil => exact absurd rfl hps0
          | cons b ps' => simpa using this
      · simp only [nodeAt, insertRunes, Function.update_noteq hs] at hnode
        exact h (a :: ps) nd hp (by simpa only [nodeAt] using hnode)

theorem New_loop_nodes (ws : List String) (t : Trie) (hok : LetterOK t.roots) :
    ∃ t', New.loop ws t = some t' ∧ LetterOK t'.roots ∧
      ∀ p : List rune, (∀ r ∈ p, isAZ r) → p ≠ [] →
        ((∃ nd, nodeAt t'.roots p = some nd) ↔
          ((∃ w ∈ ws, lowerAZ w ∧ p <+: w.toList) ∨ ∃ nd, nodeAt t.roots p = some nd)) := by
  induction ws generalizing t with
  | nil => exact ⟨t, rfl, hok, fun p _ _ => by simp⟩
  | cons w ws ih =>
    by_cases hw : lowerAZ w
    · obtain ⟨t', h1, h2, h3⟩ := ih { t with roots := insertRunes t.roots w.toList }
        (LetterOK_insertRunes _ _ hw hok)
      refine ⟨t', ?_, h2, ?_⟩
      · simp only [New.loop, addWord_of_lowerAZ t w hw, h1]
      · intro p hp hne
        rw [h3 p hp hne, nodeAt_insertRunes _ _ _ hw hp hne]
        constructor
        · rintro (⟨v, hv, hvaz, hpre⟩ | hpre | hold)
          · exact Or.inl ⟨v, List.mem_cons_of_mem _ hv, hvaz, hpre⟩
          · exact Or.inl ⟨w, List.mem_cons_self _ _, hw, hpre⟩
          · exact Or.inr hold
        · rintro (⟨v, hv, hvaz, hpre⟩ | hold)
          · rcases List.mem_cons.mp hv with hv | hv
            · subst hv
              exact Or.inr (Or.inl hpre)
            · exact Or.inl ⟨v, hv, hvaz, hpre⟩
          · exact Or.inr (Or.inr hold)
    · obtain ⟨e, he⟩ := addWord_of_not_lowerAZ t w hw
      obtain ⟨t', h1, h2, h3⟩ := ih t hok
      refine ⟨t', ?_, h2, ?_⟩
      · simp only [New.loop, he, h1]
      · intro p hp hne
        rw [h3 p hp hne]
        constructor
        · rintro (⟨v, hv, hvaz, hpre⟩ | hold)
          · exact Or.inl ⟨v, List.mem_cons_of_mem _ hv, hvaz, hpre⟩
          · exact Or.inr hold
        · rintro (⟨v, hv, hvaz, hpre⟩ | hold)
          · rcases List.mem_cons.mp hv with hv | hv
            · subst hv
              exact absurd hvaz hw
            · exact Or.inl ⟨v, hv, hvaz, hpre⟩
          · exact Or.inr hold

/-- C19: in the trie `New` builds from any list of words, a node exists at the path of
letters `l1..lk` (`k >= 1`, letters a-z) if and only if `l1..lk` is a prefix of some listed
word made only of a-z; the `letter` field of that node is `lk`; and its `leaf` flag is true
if and only if the string `l1..lk` itself is in the list. -/
theorem New_structure (ws : List String) (p : List rune) (hne : p ≠ [])
    (hp : ∀ r ∈ p, isAZ r) :
    ∃ t, New (Reader.ofWords ws) = some (some t, none) ∧
      ((∃ nd, nodeAt t.roots p = some nd) ↔ ∃ w ∈ ws, lowerAZ w ∧ p <+: w.toList) ∧
      ∀ nd, nodeAt t.roots p = some nd →
        p.getLast? = some nd.letter ∧ (nd.leaf = true ↔ String.mk p ∈ ws) := by
  obtain ⟨t, h1, h2, h3⟩ := New_loop_nodes ws Trie.new LetterOK_zero
  obtain ⟨t', h1', _, h3'⟩ := New_loop_spec ws Trie.new
  rw [h1] at h1'
  cases h1'
  refine ⟨t, by simp [New, Reader.ofWords, h1], ?_, ?_⟩
  · rw [h3 p hp hne]
    simp [Trie.new, nodeAt_zero]
  · intro nd hnd
    refine ⟨h2 p nd hp hnd, ?_⟩
    have hm := h3' p hp
    rw [memberRunes_eq_nodeAt, hnd] at hm
    simp only [Trie.new, memberRunes_zero, Bool.or_false] at hm
    rw [hm]
    simp [hne]

/-- Witness of C19: the list `cat`, the path `c`, `a`. -/
theorem New_structure_witness :
    (['c', 'a'] ≠ [] ∧ ∀ r ∈ ['c', 'a'], isAZ r) ∧
    ∃ t, New (Reader.ofWords ["cat"]) = some (some t, none) ∧
      ((∃ nd, nodeAt t.roots ['c', 'a'] = some nd) ↔
        ∃ w ∈ ["cat"], lowerAZ w ∧ ['c', 'a'] <+: w.toList) ∧
      ∀ nd, nodeAt t.roots ['c', 'a'] = some nd →
        ['c', 'a'].getLast? = some nd.letter ∧ (nd.leaf = true ↔ String.mk ['c', 'a'] ∈ ["cat"]) :=
  ⟨⟨by decide, by decide⟩, New_structure ["cat"] ['c', 'a'] (by decide) (by decide)⟩

end trie

namespace server

open srordle trie

/-- C18 fails on the code: with the dictionary `cat`, `dog` and a game whose row
`[T,T,F,T,T,F,T]` has three segments, the guess `xxyyz` splits into `xx`, `yy`, `z`, none
of which `HasWord` finds, and `serveGuess` still answers with the result of `CalcAnswer`;
with two unknown sub-words on the row `[T,T,T,F,T,T,T]` it answers with an error
message. -/
theorem serveGuess_scores_three_unknown_words :
    ∃ dict, New (Reader.ofWords ["cat", "dog"]) = some (some dict, none) ∧
      Row.SplitGuess [true, true, false, true, true, false, true] "xxyyz"
        = some (["xx", "yy", "z"], true) ∧
      dict.HasWord "xx" = some (false, none) ∧
      dict.HasWord "yy" = some (false, none) ∧
      dict.HasWord "z" = some (false, none) ∧
      serveGuess dict ⟨"robotic", [[true, true, false, true, true, false, true]], 2⟩
          "xxyyz" 0 false
        = some (Response.answer
            [⟨"x", LetterStatus.NotInWord⟩, ⟨"x", LetterStatus.NotInWord⟩,
              ⟨"", LetterStatus.PositionNotUsed⟩, ⟨"y", LetterStatus.NotInWord⟩,
              ⟨"y", LetterStatus.NotInWord⟩, ⟨"", LetterStatus.PositionNotUsed⟩,
              ⟨"z", LetterStatus.NotInWord⟩]
            false ["xx", "yy", "z"]) ∧
      Game.CalcAnswer ⟨"robotic", [[true, true, false, true, true, false, true]], 2⟩
          ["xx", "yy", "z"] [true, true, false, true, true, false, true]
        = some [⟨"x", LetterStatus.NotInWord⟩, ⟨"x", LetterStatus.NotInWord⟩,
              ⟨"", LetterStatus.PositionNotUsed⟩, ⟨"y", LetterStatus.NotInWord⟩,
              ⟨"y", LetterStatus.NotInWord⟩, ⟨"", LetterStatus.PositionNotUsed⟩,
              ⟨"z", LetterStatus.NotInWord⟩] ∧
      serveGuess dict ⟨"robotic", [[true, true, true, false, true, true, true]], 2⟩
          "xxxyyy" 0 false
        = some (Response.errorResp ErrorMessage.neitherReal) := by
  refine ⟨_, rfl, ?_, ?_, ?_, ?_, ?_, ?_, ?_⟩ <;> decide

end server

namespace srordle

theorem rangeRunes_of_width (w : List rune) (i : Nat) (h : ∀ r ∈ w, runeWidth r = 1) :
    rangeRunes i w = w.enumFrom i := by
  induction w generalizing i with
  | nil => rfl
  | cons r w ih =>
    have hr : runeWidth r = 1 := h r (List.mem_cons_self _ _)
    simp only [rangeRunes, List.enumFrom_cons, hr]
    rw [ih (i + 1) (fun x hx => h x (List.mem_cons_of_mem _ hx))]

theorem forEachLetter_eq_placed (body : Nat → rune → ScoreState → Option ScoreState)
    (O : List Nat) (segs : List String) (i : Nat) (s : ScoreState)
    (hbyte : ∀ w ∈ segs, ∀ c ∈ w.toList, runeWidth c = 1)
    (hlen : i + segs.length ≤ O.length) :
    forEachLetter O body i segs s = foldBody body (placed (O.drop i) segs) s := by
  induction segs generalizing i s with
  | nil =>
    cases hd : O.drop i <;> simp [forEachLetter, placed, foldBody]
  | cons w ws ih =>
    simp only [List.length_cons] at hlen
    have hi : i < O.length := by omega
    have hdrop : O.drop i = O[i] :: O.drop (i + 1) := List.drop_eq_getElem_cons hi
    have hw : ∀ c ∈ w.toList, runeWidth c = 1 := hbyte w (List.mem_cons_self _ _)
    have hws : ∀ v ∈ ws, ∀ c ∈ v.toList, runeWidth c = 1 :=
      fun v hv => hbyte v (List.mem_cons_of_mem _ hv)
    simp only [forEachLetter, rangeString, rangeRunes_of_width _ 0 hw, hdrop, placed,
      inner_eq_foldBody O body i O[i] (List.getElem?_eq_getElem hi), Nat.zero_add,
      foldBody_append]
    cases foldBody body (w.toList.enumFrom O[i]) s with
    | none => rfl
    | some s' =>
      simp only [Option.bind]
      exact ih (i + 1) s' hws (by omega)

theorem chop_flatten_self (ws : List (List rune)) :
    chop (ws.map List.length) ws.flatten = ws := by
  induction ws with
  | nil => rfl
  | cons w ws ih =>
    simp only [List.map_cons, List.flatten_cons, chop, List.take_left, List.drop_left, ih]

theorem placed_eq_flatRuns (runs : List (Nat × Nat)) (ws : List (List rune))
    (h : ws.map List.length = runs.map Prod.snd) :
    placed (runs.map Prod.fst) (ws.map String.mk) = flatRuns runs ws.flatten := by
  induction runs generalizing ws with
  | nil =>
    cases ws with
    | nil => rfl
    | cons w ws => simp at h
  | cons p runs ih =>
    obtain ⟨o, n⟩ := p
    cases ws with
    | nil => simp at h
    | cons w ws =>
      simp only [List.map_cons, List.cons.injEq] at h
      obtain ⟨hn, hrest⟩ := h
      simp only [List.map_cons, placed, flatRuns, List.flatten_cons, List.take_left' hn,
        List.drop_left' hn, ih ws hrest]
      rfl

theorem covered_bounds (s : List Bool) (t : List rune) (i : Nat) :
    ∀ p ∈ covered i s t, i ≤ p.1 ∧ p.1 < i + s.length := by
  induction s generalizing t i with
  | nil => intro p hp; simp [covered] at hp
  | cons v s ih =>
    intro p hp
    cases v with
    | false =>
      have := ih t (i + 1) p (by simpa [covered] using hp)
      simp only [List.length_cons]
      omega
    | true =>
      cases t with
      | nil =>
        have := ih [] (i + 1) p (by simpa [covered] using hp)
        simp only [List.length_cons]
        omega
      | cons x t =>
        simp only [covered, List.mem_cons] at hp
        rcases hp with hp | hp
        · subst hp
          simp
        · have := ih t (i + 1) p hp
          simp only [List.length_cons]
          omega

theorem placed_mem (O : List Nat) (segs : List String) (i j o : Nat) (w : String) (l : rune)
    (hO : O[i]? = some o) (hw : segs[i]? = some w) (hl : w.toList[j]? = some l) :
    (o + j, l) ∈ placed O segs := by
  induction O generalizing segs i with
  | nil => simp at hO
  | cons o' O ih =>
    cases segs with
    | nil => simp at hw
    | cons w' segs =>
      simp only [placed, List.mem_append]
      cases i with
      | zero =>
        simp only [List.getElem?_cons_zero, Option.some.injEq] at hO hw
        subst hO
        subst hw
        exact Or.inl (List.mk_add_mem_enumFrom_iff_getElem?.mpr hl)
      | succ i =>
        simp only [List.getElem?_cons_succ] at hO hw
        exact Or.inr (ih segs i hO hw)

/-- The sub-words of a scoring call that meets the preconditions of the scorer and holds
only single-byte characters, seen as a text cut by the row. -/
theorem shape_inv (r : Row) (segs : List String)
    (hshape : segs.map String.length = Row.ToTargetWordLengths r) :
    (segs.map String.toList).map List.length = (runsFrom 0 0 r).map Prod.snd ∧
      segs = (segs.map String.toList).map String.mk ∧
      r.count true = (String.join segs).toList.length ∧
      (String.join segs).toList = (segs.map String.toList).flatten := by
  have h1 : (segs.map String.toList).map List.length = (runsFrom 0 0 r).map Prod.snd := by
    rw [← ToTargetWordLengths_eq, ← hshape, List.map_map]
    rfl
  have h4 : (String.join segs).toList = (segs.map String.toList).flatten :=
    String.data_join segs
  refine ⟨h1, ?_, ?_, h4⟩
  · rw [List.map_map]
    have hf : String.mk ∘ String.toList = id := by
      funext w
      rfl
    rw [hf, List.map_id]
  · rw [h4, List.length_flatten, h1]
    have := runsFrom_sum r 0 0
    omega

theorem placed_eq_coveredSlots (g : Game) (r : Row) (segs : List String)
    (hW : r.length = g.TargetWord.length)
    (hshape : segs.map String.length = Row.ToTargetWordLengths r) :
    placed (Row.toStartOffsets r) segs = covered 0 r (String.join segs).toList ∧
      covered 0 r (String.join segs).toList
        = coveredSlots 0 (slotsOf g r (String.join segs)) := by
  obtain ⟨h1, h2, h3, h4⟩ := shape_inv r segs hshape
  have hlen : g.TargetWord.toList.length = r.length := by
    have : g.TargetWord.length = g.TargetWord.toList.length := rfl
    omega
  constructor
  · rw [toStartOffsets_eq]
    conv_lhs => rw [h2]
    rw [placed_eq_flatRuns _ _ h1, ← h4]
    have h := flatRuns_runsFrom r [] (String.join segs).toList 0 0 rfl (le_refl 0) (by omega)
    simpa using h
  · exact covered_eq_coveredSlots r _ g.TargetWord.toList 0 hlen

theorem pass_eq_posFold_bytes (g : Game) (r : Row) (segs : List String)
    (hW : r.length = g.TargetWord.length)
    (hshape : segs.map String.length = Row.ToTargetWordLengths r)
    (hbyte : ∀ w ∈ segs, ∀ c ∈ w.toList, runeWidth c = 1)
    (body : Nat → rune → ScoreState → Option ScoreState)
    (f : rune → rune → LetterAnswer → (rune → Int) → LetterAnswer × (rune → Int))
    (hloc : ∀ idx l t la las fr, las[idx]? = some la → g.TargetWord.toList[idx]? = some t →
      body idx l ⟨las, fr⟩ = some ⟨las.set idx (f l t la fr).1, (f l t la fr).2⟩)
    (las : List LetterAnswer) (fr : rune → Int)
    (hlas : las.length = (slotsOf g r (String.join segs)).length) :
    forEachLetter (Row.toStartOffsets r) body 0 segs ⟨las, fr⟩
      = some ⟨(posFold f (slotsOf g r (String.join segs)) las fr).1,
          (posFold f (slotsOf g r (String.join segs)) las fr).2⟩ := by
  have hOlen : 0 + segs.length ≤ (Row.toStartOffsets r).length := by
    have h1 : segs.length = (Row.ToTargetWordLengths r).length := by
      rw [← hshape, List.length_map]
    rw [h1, ToTargetWordLengths_eq, toStartOffsets_eq]
    simp
  obtain ⟨hp1, hp2⟩ := placed_eq_coveredSlots g r segs hW hshape
  rw [forEachLetter_eq_placed body _ segs 0 _ hbyte hOlen, List.drop_zero, hp1, hp2]
  have h3 := foldBody_local g.TargetWord.toList body f hloc (slotsOf g r (String.join segs))
    [] [] las fr (by rw [slotsOf_map_snd g r _ hW]; rfl) rfl hlas
  simpa using h3

theorem CalcAnswer_eq_scoreSlots_bytes (g : Game) (r : Row) (segs : List String)
    (hW : r.length = g.TargetWord.length)
    (hshape : segs.map String.length = Row.ToTargetWordLengths r)
    (hbyte : ∀ w ∈ segs, ∀ c ∈ w.toList, runeWidth c = 1) :
    g.CalcAnswer segs r
      = some (scoreSlots (freqAfterCorrect g (slotsOf g r (String.join segs)))
          (slotsOf g r (String.join segs))) := by
  have hsl := slotsOf_length g r (String.join segs) hW
  have hblank : g.TargetWord.toList.map
        (fun _ => (⟨"", LetterStatus.PositionNotUsed⟩ : LetterAnswer))
      = List.replicate (slotsOf g r (String.join segs)).length
          ⟨"", LetterStatus.PositionNotUsed⟩ := by
    have : g.TargetWord.length = g.TargetWord.toList.length := rfl
    rw [List.map_const', hsl]
    congr 1
    omega
  have p1 := pass_eq_posFold_bytes g r segs hW hshape hbyte CalcAnswer.populate stepPopulate
    (fun idx l t la las fr hla _ => populate_local idx l t la las fr hla)
    (List.replicate (slotsOf g r (String.join segs)).length
      ⟨"", LetterStatus.PositionNotUsed⟩) g.targetFreq (by simp)
  rw [posFold_populate] at p1
  have p2 := pass_eq_posFold_bytes g r segs hW hshape hbyte
    (CalcAnswer.markCorrect g.TargetWord.toList) stepCorrect
    (fun idx l t la las fr hla ht => markCorrect_local _ idx l t la las fr hla ht)
    ((slotsOf g r (String.join segs)).map afterPopulate) g.targetFreq (by simp)
  rw [posFold_correct] at p2
  have p3 := pass_eq_posFold_bytes g r segs hW hshape hbyte CalcAnswer.markMisplaced
    stepMisplaced (fun idx l t la las fr hla _ => markMisplaced_local idx l t la las fr hla)
    ((slotsOf g r (String.join segs)).map afterCorrect)
    (freqAfterCorrect g (slotsOf g r (String.join segs))) (by simp)
  rw [posFold_misplaced] at p3
  have hfr : (fun c => g.targetFreq c
        - ((slotsOf g r (String.join segs)).countP (exactAt c) : Int))
      = freqAfterCorrect g (slotsOf g r (String.join segs)) := rfl
  simp only [hfr] at p2
  simp only [Game.CalcAnswer, hblank, p1, p2, p3]

/-- C17 as stated fails: the target `abc`, the all-true row of width 3 and the single
sub-word `éab` of 3 characters meet the preconditions of the scorer, yet `range` yields the
byte offsets 0, 2, 3 for its characters, the slot index 3 is out of range and `CalcAnswer`
panics. -/
theorem CalcAnswer_multibyte_out_of_range :
    [true, true, true].length = "abc".length ∧
    ["éab"].map String.length = Row.ToTargetWordLengths [true, true, true] ∧
    (rangeString "éab").map Prod.fst = [0, 2, 3] ∧
    Game.CalcAnswer ⟨"abc", [], 0⟩ ["éab"] [true, true, true] = none := by
  refine ⟨?_, ?_, ?_, ?_⟩ <;> decide

/-- C17 amended: under the preconditions of the scorer (row width equal to the character
count `W` of the target, as many sub-words as segments, the `i`-th sub-word as long as the
`i`-th segment) and for sub-words made only of single-byte characters, `CalcAnswer` does
not panic; the slot indices its loop nest computes are exactly `startOffsets[i] + j` for
the `j`-th character of the `i`-th sub-word; every one of them lies in `0..W-1`; and for
every character of every sub-word `startOffsets[i]` is defined. -/
theorem CalcAnswer_indices_in_range (g : Game) (r : Row) (segs : List String)
    (hW : r.length = g.TargetWord.length)
    (hshape : segs.map String.length = Row.ToTargetWordLengths r)
    (hbyte : ∀ w ∈ segs, ∀ c ∈ w.toList, runeWidth c = 1) :
    (∃ las, g.CalcAnswer segs r = some las) ∧
    (∀ (body : Nat → rune → ScoreState → Option ScoreState) (s : ScoreState),
      forEachLetter (Row.toStartOffsets r) body 0 segs s
        = foldBody body (placed (Row.toStartOffsets r) segs) s) ∧
    (∀ p ∈ placed (Row.toStartOffsets r) segs, p.1 < g.TargetWord.length) ∧
    (∀ (i j : Nat) (w : String) (l : rune), segs[i]? = some w → w.toList[j]? = some l →
      ∃ o, (Row.toStartOffsets r)[i]? = some o ∧ o + j < g.TargetWord.length ∧
        (o + j, l) ∈ placed (Row.toStartOffsets r) segs) := by
  have hOlen : 0 + segs.length ≤ (Row.toStartOffsets r).length := by
    have h1 : segs.length = (Row.ToTargetWordLengths r).length := by
      rw [← hshape, List.length_map]
    rw [h1, ToTargetWordLengths_eq, toStartOffsets_eq]
    simp
  have hrange : ∀ p ∈ placed (Row.toStartOffsets r) segs, p.1 < g.TargetWord.length := by
    intro p hp
    rw [(placed_eq_coveredSlots g r segs hW hshape).1] at hp
    have := covered_bounds r _ 0 p hp
    omega
  refine ⟨⟨_, CalcAnswer_eq_scoreSlots_bytes g r segs hW hshape hbyte⟩, ?_, hrange, ?_⟩
  · intro body s
    have h := forEachLetter_eq_placed body (Row.toStartOffsets r) segs 0 s hbyte hOlen
    simpa using h
  · intro i j w l hw hl
    have hi : i < (Row.toStartOffsets r).length := by
      obtain ⟨h, _⟩ := List.getElem?_eq_some.mp hw
      omega
    have hO : (Row.toStartOffsets r)[i]? = some (Row.toStartOffsets r)[i] :=
      List.getElem?_eq_getElem hi
    have hmem := placed_mem _ segs i j _ w l hO hw hl
    exact ⟨_, hO, hrange _ hmem, hmem⟩

/-- Witness of the amended C17: target `robotic`, row `[T,T,T,F,T,T,T]`, sub-words `cat`
and `dog`. -/
theorem CalcAnswer_indices_in_range_witness :
    ([true, true, true, false, true, true, true].length = "robotic".length ∧
      ["cat", "dog"].map String.length
        = Row.ToTargetWordLengths [true, true, true, false, true, true, true] ∧
      ∀ w ∈ ["cat", "dog"], ∀ c ∈ w.toList, runeWidth c = 1) ∧
    ((∃ las, Game.CalcAnswer ⟨"robotic", [], 0⟩ ["cat", "dog"]
        [true, true, true, false, true, true, true] = some las) ∧
    (∀ (body : Nat → rune → ScoreState → Option ScoreState) (s : ScoreState),
      forEachLetter (Row.toStartOffsets [true, true, true, false, true, true, true]) body 0
          ["cat", "dog"] s
        = foldBody body
            (placed (Row.toStartOffsets [true, true, true, false, true, true, true])
              ["cat", "dog"]) s) ∧
    (∀ p ∈ placed (Row.toStartOffsets [true, true, true, false, true, true, true])
        ["cat", "dog"], p.1 < "robotic".length) ∧
    (∀ (i j : Nat) (w : String) (l : rune), ["cat", "dog"][i]? = some w →
      w.toList[j]? = some l →
      ∃ o, (Row.toStartOffsets [true, true, true, false, true, true, true])[i]? = some o ∧
        o + j < "robotic".length ∧
        (o + j, l) ∈ placed (Row.toStartOffsets [true, true, true, false, true, true, true])
          ["cat", "dog"])) :=
  ⟨⟨by decide, by decide, by decide⟩,
    CalcAnswer_indices_in_range ⟨"robotic", [], 0⟩ [true, true, true, false, true, true, true]
      ["cat", "dog"] (by decide) (by decide) (by decide)⟩

end srordle

namespace trie

/-- C21: the empty string is accepted but never stored: for every trie, `addWord("")`
returns no error and leaves the trie unchanged, and `HasWord("")` returns `(false, nil)`;
so does `HasWord("")` on the trie `New` builds from any list, with or without an empty
line. -/
theorem empty_string_not_stored (t : Trie) (ws : List String) :
    t.addWord "" = some (t, none) ∧
    t.HasWord "" = some (false, none) ∧
    ∃ t', New (Reader.ofWords ("" :: ws)) = some (some t', none) ∧
      t'.HasWord "" = some (false, none) ∧
      New (Reader.ofWords ws) = some (some t', none) := by
  have hadd : ∀ u : Trie, u.addWord "" = some (u, none) := fun u => rfl
  have hhas : ∀ u : Trie, u.HasWord "" = some (false, none) := fun u => rfl
  refine ⟨hadd t, hhas t, ?_⟩
  obtain ⟨t', h1, _, _⟩ := New_ofWords_spec ws
  refine ⟨t', ?_, hhas t', h1⟩
  simp only [New, Reader.ofWords, New.loop, hadd] at h1 ⊢
  exact h1

end trie

namespace db

theorem andFF_shl32_zero (y : Int) (k : Nat) (hk : 8 ≤ k) (hk' : k ≤ 24) :
    toByte (andFF (shl32 y k)) = 0 := by
  have h2 : (2 : Int) ^ k = 256 * 2 ^ (k - 8) := by
    rw [show (256 : Int) = 2 ^ 8 by norm_num, ← pow_add]
    congr 1
    omega
  simp only [toByte, andFF, shl32, wrapInt32, h2]
  generalize (2 : Int) ^ (k - 8) = m
  have : y * (256 * m) = 256 * (y * m) := by ring
  rw [this]
  generalize y * m = z
  omega

/-- Whatever the year, the first three bytes `asBytes` writes are zero: the year is
shifted left before the low byte is taken. -/
theorem asBytes_first_three (d : Date) : d.asBytes.take 3 = [0, 0, 0] := by
  simp [Date.asBytes, andFF_shl32_zero]

/-- C22 fails on the code: the dates 2024-01-01 and 2280-01-01 are distinct and `gameKey`
gives both the same bytes, `game:` followed by 0, 0, 0, 232, 1, 1; only the low byte of the
year is kept. -/
theorem gameKey_collision :
    (⟨2024, 1, 1⟩ : Date) ≠ ⟨2280, 1, 1⟩ ∧
    gameKey ⟨2024, 1, 1⟩ = gameKey ⟨2280, 1, 1⟩ ∧
    gameKey ⟨2024, 1, 1⟩ = [103, 97, 109, 101, 58, 0, 0, 0, 232, 1, 1] ∧
    "game:".toList.map Char.toNat = [103, 97, 109, 101, 58] := by
  refine ⟨?_, ?_, ?_, ?_⟩ <;> decide

end db
